import Mathlib

/-!
# Dungeon generator and collision-checked movement (`tutorial/03b/main.go`)

A shallow embedding of the map generator (`makeMap` and its helpers), of the
rectangle geometry (`Rect.center`, `Rect.intersect`) and of the movement rule
(`Object.move`, `handleKeys`).

Modelling conventions.

* Go's `int` is 64 bits wide and is modelled by `Int`.  `Rect.center` and
  `Rect.intersect`, whose statements range over arbitrary rectangles, reduce
  every sum to the 64-bit range (`wrap64`), as the machine does.  In the other
  functions a sum either stays below the map size (`makeMap`) or is used as a
  board index, which is out of range once it has wrapped; there `+` is
  addition of integers.  `/` on `int` truncates toward zero and is `Int.tdiv`.
* A run-time panic (slice index out of range, nil dereference, `rand.Intn`
  called with a non-positive argument) is the result `none`.
* `board [][]*Tile` is a list of columns, each a list of tiles.  `makeMap`
  allocates one fresh `Tile` per cell, so tiles are held by value.
* `*Object` pointers are indices into `World.heap`; the globals `player` and
  `objects` hold such indices, so `objects[0]` aliases `player` as in `init`.
* The global source of `math/rand` is a stream of raw draws and a cursor;
  `rand.Intn(n)` returns the next raw draw reduced modulo `n`, which reaches
  every value of `[0, n)`.
-/

namespace Roguelike

/-! ## Constants -/

def windowSizeX : Int := 80
def windowSizeY : Int := 50
def mapSizeX : Int := windowSizeX
def mapSizeY : Int := windowSizeY - 5
def roomMaxSize : Int := 10
def roomMinSize : Int := 6
def maxRooms : Int := 30

/-! ## Data model -/

structure Object where
  layer : Int
  x : Int
  y : Int
  char : String
  color : String
deriving DecidableEq, Repr

structure Tile where
  blocked : Bool
  blocksSight : Bool
deriving DecidableEq, Repr

structure Rect where
  x : Int
  y : Int
  w : Int
  h : Int
deriving DecidableEq, Repr

/-- The board: `board[x]` is a column, `board[x][y]` a tile. -/
abbrev Board := List (List Tile)

/-- The random source: the raw draws still to come are `draws pos`, `draws (pos+1)`, ... -/
structure Rng where
  draws : Nat → Nat
  pos : Nat

/-- The global variables of the program together with the `Object`s they point to. -/
structure World where
  board : Board
  heap : List Object
  player : Nat
  objects : List Nat
  rng : Rng

/-! ## Board access -/

/-- The slice read `l[i]` with an `int` index; `none` when `i` is out of range. -/
def index {α : Type} (l : List α) (i : Int) : Option α :=
  if i < 0 then none else l[i.toNat]?

/-- The read `board[x][y]`; `none` when either index is out of range. -/
def Board.get (b : Board) (x y : Int) : Option Tile :=
  match index b x with
  | none => none
  | some col => index col y

/-- A field assignment through `board[x][y]`: the tile is replaced by `f tile`;
`none` when either index is out of range. -/
def Board.update (b : Board) (x y : Int) (f : Tile → Tile) : Option Board :=
  match index b x with
  | none => none
  | some col =>
    match index col y with
    | none => none
    | some t => some (b.set x.toNat (col.set y.toNat (f t)))

/-- The two statements `board[x][y].blocked = false; board[x][y].blocksSight = false`. -/
def carve (x y : Int) (b : Board) : Option Board :=
  (b.update x y (fun t => { t with blocked := false })).bind
    (fun b1 => b1.update x y (fun t => { t with blocksSight := false }))

/-! ## Loops -/

/-- Runs `body i`, `body (i+1)`, ... for `n` consecutive values of the counter. -/
def forLoop {σ : Type} (body : Int → σ → Option σ) : Nat → Int → σ → Option σ
  | 0, _, s => some s
  | n + 1, i, s => (body i s).bind (forLoop body n (i + 1))

/-- The loop `for i := lo; i < hi; i++ { body }`. -/
def forRange {σ : Type} (lo hi : Int) (body : Int → σ → Option σ) (s : σ) : Option σ :=
  forLoop body (hi - lo).toNat lo s

/-! ## Objects -/

/-- The method `(obj *Object) move(dx, dy)`, for the object at address `p`. -/
def Object.move (p : Nat) (dx dy : Int) (w : World) : Option World :=
  match w.heap[p]? with
  | none => none
  | some obj =>
    match w.board.get (obj.x + dx) (obj.y + dy) with
    | none => none
    | some t =>
      if t.blocked == false then
        some { w with heap := w.heap.set p { obj with x := obj.x + dx, y := obj.y + dy } }
      else some w

/-! ## Rectangle geometry -/

/-- The value an `int` sum takes when its exact result is `z`: `z` reduced modulo `2^64`
into `[-2^63, 2^63)`. -/
def wrap64 (z : Int) : Int :=
  (z + 9223372036854775808) % 18446744073709551616 - 9223372036854775808

def Rect.center (room : Rect) : Int × Int :=
  let centerX := Int.tdiv (wrap64 (room.x + wrap64 (room.x + room.h))) 2
  let centerY := Int.tdiv (wrap64 (room.y + wrap64 (room.y + room.w))) 2
  (centerX, centerY)

def Rect.intersect (room other : Rect) : Bool :=
  let cond1 := decide (room.x ≤ wrap64 (other.x + other.w))
  let cond2 := decide (wrap64 (room.x + room.w) ≥ other.x)
  let cond3 := decide (room.y ≤ wrap64 (other.y + other.h))
  let cond4 := decide (wrap64 (room.y + room.h) ≥ other.y)
  cond1 && cond2 && cond3 && cond4

def min (a b : Int) : Int :=
  if a < b then a else b

def max (a b : Int) : Int :=
  if a > b then a else b

/-! ## Random numbers -/

/-- The call `rand.Intn(n)`: panics when `n <= 0`, else returns a value of `[0, n)`. -/
def Rng.Intn (n : Int) (g : Rng) : Option (Int × Rng) :=
  if n ≤ 0 then none
  else some ((g.draws g.pos : Int) % n, { g with pos := g.pos + 1 })

def randIntRange (a b : Int) (g : Rng) : Option (Int × Rng) :=
  match g.Intn (b - a) with
  | none => none
  | some (v, g1) => some (v + a, g1)

/-! ## Carving -/

def createRoom (room : Rect) (b : Board) : Option Board :=
  forRange (room.x + 1) (room.x + room.w)
    (fun x b1 => forRange (room.y + 1) (room.y + room.h) (fun y b2 => carve x y b2) b1) b

def horizontalTunnel (x1 x2 y : Int) (b : Board) : Option Board :=
  forRange (min x1 x2) (max x1 x2 + 1) (fun x b1 => carve x y b1) b

def verticalTunnel (y1 y2 x : Int) (b : Board) : Option Board :=
  forRange (min y1 y2) (max y1 y2 + 1) (fun y b1 => carve x y b1) b

/-! ## Map generation -/

/-- The local variables of `makeMap` next to the globals.  `flips` is a history
variable: it lists the results of the calls `rand.Intn(1+1)` in order, one per
corridor, and no branch reads it. -/
structure MapGen where
  world : World
  rooms : List Rect
  numRooms : Int
  flips : List Int

/-- The board built by the allocation loops of `makeMap`: every cell `Tile{true, true}`. -/
def newMap : Board :=
  List.replicate mapSizeX.toNat (List.replicate mapSizeY.toNat { blocked := true, blocksSight := true })

/-- The four draws `w`, `h`, `x`, `y` of one attempt and the candidate `&Rect{x, y, w, h}`. -/
def sampleRoom (g : Rng) : Option (Rect × Rng) :=
  match randIntRange roomMinSize roomMaxSize g with
  | none => none
  | some (w, g1) =>
    match randIntRange roomMinSize roomMaxSize g1 with
    | none => none
    | some (h, g2) =>
      match g2.Intn (mapSizeX - w - 1) with
      | none => none
      | some (x, g3) =>
        match g3.Intn (mapSizeY - h - 1) with
        | none => none
        | some (y, g4) => some ({ x := x, y := y, w := w, h := h }, g4)

/-- The loop over `rooms` that sets `failed` and breaks at the first intersecting room. -/
def failedAgainst (newRoom : Rect) : List Rect → Bool
  | [] => false
  | otherRoom :: rest =>
    if newRoom.intersect otherRoom == true then true else failedAgainst newRoom rest

/-- The assignments `player.x = newX; player.y = newY`. -/
def setPlayer (newX newY : Int) (w : World) : Option World :=
  match w.heap[w.player]? with
  | none => none
  | some obj => some { w with heap := w.heap.set w.player { obj with x := newX, y := newY } }

/-- The `else` branch of `numRooms == 0`: the corridor from the previous room. -/
def connect (newX newY : Int) (s : MapGen) : Option MapGen :=
  match index s.rooms (s.numRooms - 1) with
  | none => none
  | some prev =>
    let (prevX, prevY) := prev.center
    match s.world.rng.Intn (1 + 1) with
    | none => none
    | some (c, g) =>
      let carved :=
        if c == 1 then
          (horizontalTunnel prevX newX prevY s.world.board).bind (verticalTunnel prevY newY newX)
        else
          (verticalTunnel prevY newY prevX s.world.board).bind (horizontalTunnel prevX newX newY)
      match carved with
      | none => none
      | some b =>
        some { s with world := { s.world with board := b, rng := g }, flips := s.flips ++ [c] }

/-- The body of `if failed == false`. -/
def accept (newRoom : Rect) (s : MapGen) : Option MapGen :=
  match createRoom newRoom s.world.board with
  | none => none
  | some b =>
    let s1 := { s with world := { s.world with board := b } }
    let (newX, newY) := newRoom.center
    let linked :=
      if s1.numRooms == 0 then
        (setPlayer newX newY s1.world).map (fun w => { s1 with world := w })
      else connect newX newY s1
    match linked with
    | none => none
    | some s2 => some { s2 with rooms := s2.rooms ++ [newRoom], numRooms := s2.numRooms + 1 }

/-- One iteration of the loop `for i := 0; i < maxRooms; i++`. -/
def attempt (s : MapGen) : Option MapGen :=
  match sampleRoom s.world.rng with
  | none => none
  | some (newRoom, g) =>
    let s1 := { s with world := { s.world with rng := g } }
    let failed := failedAgainst newRoom s1.rooms
    if failed == false then accept newRoom s1 else some s1

/-- The function `makeMap`, returning its local variables along with the globals. -/
def makeMapGen (w : World) : Option MapGen :=
  forRange 0 maxRooms (fun _ s => attempt s)
    { world := { w with board := newMap }, rooms := [], numRooms := 0, flips := [] }

def makeMap (w : World) : Option World :=
  (makeMapGen w).map (fun s => s.world)

/-! ## Input and start-up -/

/-- The key codes `handleKeys` tells apart; `other` is any other code. -/
inductive Key where
  | up
  | down
  | left
  | right
  | other
deriving DecidableEq, Repr

def handleKeys (key : Key) (w : World) : Option World :=
  match key with
  | .up => Object.move w.player 0 (-1) w
  | .down => Object.move w.player 0 1 w
  | .left => Object.move w.player (-1) 0 w
  | .right => Object.move w.player 1 0 w
  | .other => some w

/-- The state `init` hands to `makeMap`: `player` and `npc` allocated and appended
to `objects`, the board still nil, the random source seeded. -/
def initWorld (draws : Nat → Nat) : World :=
  { board := []
    heap := [{ layer := 1, x := Int.tdiv mapSizeX 2, y := Int.tdiv mapSizeY 2,
               char := "@", color := "white" },
             { layer := 0, x := Int.tdiv mapSizeX 2 - 5, y := Int.tdiv mapSizeY 2,
               char := "@", color := "yellow" }]
    player := 0
    objects := [0, 1]
    rng := { draws := draws, pos := 0 } }

def init (draws : Nat → Nat) : Option World :=
  makeMap (initWorld draws)

/-- The key presses of `loopOver` after start-up, in order. -/
def play (keys : List Key) (w : World) : Option World :=
  match keys with
  | [] => some w
  | k :: rest => (handleKeys k w).bind (play rest)

/-- The call `obj.move(dx, dy)` made `n` times in a row on the object at address `p`. -/
def moveTimes (p : Nat) (dx dy : Int) : Nat → World → Option World
  | 0, w => some w
  | n + 1, w => (Object.move p dx dy w).bind (moveTimes p dx dy n)

/-- A two-column board for examples: a floor cell at `(0, 0)`, walls at `(0, 1)` and
`(1, 1)`, a floor cell at `(1, 0)`; one object stands at `(0, 0)`. -/
def smallWorld : World :=
  { board := [[{ blocked := false, blocksSight := false }, { blocked := true, blocksSight := true }],
              [{ blocked := false, blocksSight := false }, { blocked := true, blocksSight := true }]]
    heap := [{ layer := 1, x := 0, y := 0, char := "@", color := "white" }]
    player := 0
    objects := [0]
    rng := { draws := fun _ => 0, pos := 0 } }

/-! ## Vocabulary of the statements -/

/-- The cell `(x, y)` lies on the map. -/
def InMap (x y : Int) : Prop :=
  0 ≤ x ∧ x < mapSizeX ∧ 0 ≤ y ∧ y < mapSizeY

instance (x y : Int) : Decidable (InMap x y) := by
  unfold InMap
  infer_instance

/-- The cell `(x, y)` of the board exists and can be entered. -/
def Passable (b : Board) (x y : Int) : Prop :=
  ∃ t, b.get x y = some t ∧ t.blocked = false

/-- The cells `createRoom` writes: `x+1 .. x+w-1` by `y+1 .. y+h-1`. -/
def Rect.interior (r : Rect) (x y : Int) : Prop :=
  r.x + 1 ≤ x ∧ x ≤ r.x + r.w - 1 ∧ r.y + 1 ≤ y ∧ y ≤ r.y + r.h - 1

/-- The value `x` lies between `a` and `b` inclusive, in either order. -/
def Between (a b x : Int) : Prop :=
  (a ≤ x ∧ x ≤ b) ∨ (b ≤ x ∧ x ≤ a)

/-- The L-shape from the centre `p` to the centre `n` that goes along the row of `p`
and then the column of `n`. -/
def RowFirst (p n : Int × Int) (x y : Int) : Prop :=
  (y = p.2 ∧ Between p.1 n.1 x) ∨ (x = n.1 ∧ Between p.2 n.2 y)

/-- The L-shape from the centre `p` to the centre `n` that goes along the column of `p`
and then the row of `n`. -/
def ColumnFirst (p n : Int × Int) (x y : Int) : Prop :=
  (x = p.1 ∧ Between p.2 n.2 y) ∨ (y = n.2 ∧ Between p.1 n.1 x)

/-- The L-shape selected by the draw `c` of `rand.Intn(1+1)`. -/
def Corridor (c : Int) (p n : Int × Int) (x y : Int) : Prop :=
  (c = 1 ∧ RowFirst p n x y) ∨ (c ≠ 1 ∧ ColumnFirst p n x y)

/-- The cell `(x, y)` is in the interior of one of `rooms`, or on the corridor between two
consecutive ones, `flips[k]` being the draw for the corridor from `rooms[k]` to `rooms[k+1]`. -/
def Dug (rooms : List Rect) (flips : List Int) (x y : Int) : Prop :=
  (∃ r, r ∈ rooms ∧ r.interior x y) ∨
  (∃ k p n c, rooms[k]? = some p ∧ rooms[k + 1]? = some n ∧ flips[k]? = some c ∧
    Corridor c p.center n.center x y)

/-- The board has the size of the map; its dug cells are `Tile{false, false}` and all
others `Tile{true, true}`. -/
def Shows (b : Board) (P : Int → Int → Prop) : Prop :=
  ∀ x y, (¬ InMap x y → b.get x y = none) ∧
    (InMap x y → P x y → b.get x y = some { blocked := false, blocksSight := false }) ∧
    (InMap x y → ¬ P x y → b.get x y = some { blocked := true, blocksSight := true })

/-- The bounds of a sampled candidate. -/
def Rect.Sampled (r : Rect) : Prop :=
  6 ≤ r.w ∧ r.w ≤ 9 ∧ 6 ≤ r.h ∧ r.h ≤ 9 ∧
  0 ≤ r.x ∧ r.x + r.w < mapSizeX - 1 ∧ 0 ≤ r.y ∧ r.y + r.h < mapSizeY - 1

/-- Two cells are neighbours along a row or a column. -/
def Adjacent (a b : Int × Int) : Prop :=
  (a.1 = b.1 ∧ (a.2 = b.2 + 1 ∨ b.2 = a.2 + 1)) ∨ (a.2 = b.2 ∧ (a.1 = b.1 + 1 ∨ b.1 = a.1 + 1))

/-- One step of a walk on the board: from a passable cell to a neighbouring passable cell. -/
def Step (b : Board) (a c : Int × Int) : Prop :=
  Adjacent a c ∧ Passable b a.1 a.2 ∧ Passable b c.1 c.2

/-- The cells `a` and `c` are passable and joined by a path of passable cells, each next to
the one before it. -/
def Joined (b : Board) (a c : Int × Int) : Prop :=
  Passable b a.1 a.2 ∧ Relation.ReflTransGen (Step b) a c

/-- The cell `(x, y)` is not on the outer edge of the map. -/
def Inner (x y : Int) : Prop :=
  1 ≤ x ∧ x ≤ mapSizeX - 2 ∧ 1 ≤ y ∧ y ≤ mapSizeY - 2

/-- In the world `w` the board is `b` and the player stands on a passable cell of it. -/
def Standing (b : Board) (w : World) : Prop :=
  w.board = b ∧ ∃ obj, w.heap[w.player]? = some obj ∧ Passable b obj.x obj.y

/-- The loop invariant of `makeMap` after `k` attempts, for a run started in `w0`. -/
structure Inv (w0 : World) (k : Nat) (s : MapGen) : Prop where
  num : s.numRooms = s.rooms.length
  flipsLen : s.flips.length + 1 = s.rooms.length ∨ (s.rooms = [] ∧ s.flips = [])
  coin : ∀ c, c ∈ s.flips → c = 0 ∨ c = 1
  sampled : ∀ r, r ∈ s.rooms → r.Sampled
  apart : s.rooms.Pairwise (fun a b => a.intersect b = false ∧ b.intersect a = false)
  board : Shows s.world.board (Dug s.rooms s.flips)
  count : s.rooms.length ≤ k
  nonempty : 0 < k → s.rooms ≠ []
  fresh : s.rooms = [] → s.world.rng = w0.rng ∧ s.world.heap = w0.heap
  first : ∀ r, s.rooms.head? = some r → (∃ g, sampleRoom w0.rng = some (r, g)) ∧
    ∃ obj, w0.heap[w0.player]? = some obj ∧
      s.world.heap = w0.heap.set w0.player { obj with x := r.center.1, y := r.center.2 }
  player : s.world.player = w0.player
  objects : s.world.objects = w0.objects

/-- Draws for an example run: the first candidate is `Rect{0, 0, 9, 6}` and every later one
is `Rect{0, 0, 6, 6}`. -/
def wideRoomDraws : Nat → Nat :=
  fun i => if i = 0 then 3 else 0

/-- The board `b1` is `b` with the cells `P` set to `Tile{false, false}`. -/
def CarvedIn (P : Int → Int → Prop) (b b1 : Board) : Prop :=
  ∀ x y, (P x y → b1.get x y = some { blocked := false, blocksSight := false }) ∧
    (¬ P x y → b1.get x y = b.get x y)

/-- Every tile of the board has `blocked == blocksSight`. -/
def Consistent (b : Board) : Prop :=
  ∀ x y t, b.get x y = some t → t.blocked = t.blocksSight

/-- The board has `W` columns of `H` tiles each. -/
def Board.HasSize (b : Board) (W H : Int) : Prop :=
  ∀ x y, (b.get x y).isSome ↔ (0 ≤ x ∧ x < W ∧ 0 ≤ y ∧ y < H)

/-- The one-cell border of a room: the perimeter of `[x, x+w]` by `[y, y+h]`. -/
def Rect.border (r : Rect) (x y : Int) : Prop :=
  r.x ≤ x ∧ x ≤ r.x + r.w ∧ r.y ≤ y ∧ y ≤ r.y + r.h ∧
    (x = r.x ∨ x = r.x + r.w ∨ y = r.y ∨ y = r.y + r.h)

/-- The integer `z` is a value of Go's `int`. -/
def InInt (z : Int) : Prop :=
  -9223372036854775808 ≤ z ∧ z < 9223372036854775808

instance (z : Int) : Decidable (InInt z) := by
  unfold InInt
  infer_instance

/-- The floor of `a / 2`, the division taken in the rationals. -/
def floorHalf (a : Int) : Int :=
  ⌊(a : ℚ) / 2⌋

/-- Draws for an example run: the first candidate is `Rect{0, 0, 6, 9}`. -/
def tallRoomDraws : Nat → Nat :=
  fun i => if i = 1 then 3 else 0

/-- A three-by-two board for examples, every cell `Tile{true, true}`. -/
def wallBoard : Board :=
  List.replicate 3 (List.replicate 2 { blocked := true, blocksSight := true })

/-! ## Lemmas on board access -/

theorem index_eq_some {α : Type} (l : List α) (i : Int) (a : α) :
    index l i = some a ↔ 0 ≤ i ∧ l[i.toNat]? = some a := by
  unfold index
  split <;> simp <;> omega

theorem index_set {α : Type} (l : List α) (i j : Int) (a : α) (hi : 0 ≤ i) :
    index (l.set i.toNat a) j = if j = i then (index l i).map (fun _ => a) else index l j := by
  unfold index
  by_cases hj : j < 0
  · have : j ≠ i := by omega
    simp [hj, this]
  · simp only [hj, if_false, List.getElem?_set]
    have hi' : ¬ i < 0 := by omega
    simp only [hi', if_false]
    by_cases hji : j = i
    · subst hji
      simp only [if_true]
      by_cases hl : j.toNat < l.length
      · simp [hl]
      · have hn : l[j.toNat]? = none := List.getElem?_eq_none (by omega)
        simp [hl, hn]
    · have : i.toNat ≠ j.toNat := by omega
      simp [this, hji]

theorem Board.get_update (b b1 : Board) (x y : Int) (f : Tile → Tile)
    (h : b.update x y f = some b1) (x1 y1 : Int) :
    b1.get x1 y1 = if x1 = x ∧ y1 = y then (b.get x y).map f else b.get x1 y1 := by
  unfold Board.update at h
  cases hc : index b x with
  | none => simp [hc] at h
  | some col =>
    cases ht : index col y with
    | none => simp [hc, ht] at h
    | some t =>
      simp only [hc, ht, Option.some.injEq] at h
      subst h
      have hx : 0 ≤ x := ((index_eq_some _ _ _).1 hc).1
      have hy : 0 ≤ y := ((index_eq_some _ _ _).1 ht).1
      unfold Board.get
      rw [index_set _ _ _ _ hx]
      by_cases hx1 : x1 = x
      · subst hx1
        simp only [if_true, hc, Option.map_some', true_and]
        rw [index_set _ _ _ _ hy]
        by_cases hy1 : y1 = y
        · subst hy1
          simp [ht]
        · simp [hy1]
      · simp [hx1]

theorem Board.update_of_get (b : Board) (x y : Int) (f : Tile → Tile) (t : Tile)
    (h : b.get x y = some t) : ∃ b1, b.update x y f = some b1 := by
  unfold Board.get at h
  unfold Board.update
  cases hc : index b x with
  | none => simp [hc] at h
  | some col =>
    simp only [hc] at h
    simp [h]

theorem carve_of_get (b : Board) (x y : Int) (t : Tile) (h : b.get x y = some t) :
    ∃ b1, carve x y b = some b1 ∧
      ∀ x1 y1, b1.get x1 y1 =
        if x1 = x ∧ y1 = y then some { blocked := false, blocksSight := false } else b.get x1 y1 := by
  obtain ⟨b1, h1⟩ := Board.update_of_get b x y (fun t => { t with blocked := false }) t h
  have g1 := Board.get_update b b1 x y _ h1
  have h1xy := g1 x y
  simp only [and_self, if_true, h, Option.map_some'] at h1xy
  obtain ⟨b2, h2⟩ := Board.update_of_get b1 x y (fun t => { t with blocksSight := false }) _ h1xy
  have g2 := Board.get_update b1 b2 x y _ h2
  refine ⟨b2, by simp [carve, h1, h2], ?_⟩
  intro x1 y1
  rw [g2 x1 y1]
  by_cases hxy : x1 = x ∧ y1 = y
  · simp [hxy, h1xy]
  · simp only [hxy, if_false]
    rw [g1 x1 y1]
    simp [hxy]

/-! ## Carving keeps the board a map -/

theorem Shows.congr {b : Board} {P Q : Int → Int → Prop} (h : Shows b P)
    (hPQ : ∀ x y, InMap x y → (P x y ↔ Q x y)) : Shows b Q := by
  intro x y
  obtain ⟨h1, h2, h3⟩ := h x y
  refine ⟨h1, fun hm hq => h2 hm ((hPQ x y hm).2 hq), fun hm hq => h3 hm ?_⟩
  exact fun hp => hq ((hPQ x y hm).1 hp)

theorem Shows.get_isSome {b : Board} {P : Int → Int → Prop} (h : Shows b P) {x y : Int}
    (hm : InMap x y) : ∃ t, b.get x y = some t := by
  obtain ⟨_, h2, h3⟩ := h x y
  by_cases hp : P x y
  · exact ⟨_, h2 hm hp⟩
  · exact ⟨_, h3 hm hp⟩

theorem Shows.passable_iff {b : Board} {P : Int → Int → Prop} (h : Shows b P) (x y : Int) :
    Passable b x y ↔ InMap x y ∧ P x y := by
  obtain ⟨h1, h2, h3⟩ := h x y
  constructor
  · rintro ⟨t, ht, hb⟩
    by_cases hm : InMap x y
    · refine ⟨hm, ?_⟩
      by_contra hp
      rw [h3 hm hp] at ht
      cases ht
      simp at hb
    · rw [h1 hm] at ht
      cases ht
  · rintro ⟨hm, hp⟩
    exact ⟨_, h2 hm hp, rfl⟩

theorem Board.get_replicate (m n : Nat) (t : Tile) (x y : Int) :
    Board.get (List.replicate m (List.replicate n t)) x y =
      if 0 ≤ x ∧ x < m ∧ 0 ≤ y ∧ y < n then some t else none := by
  unfold Board.get index
  by_cases hx : x < 0
  · have : ¬ (0 ≤ x) := by omega
    simp [hx, this]
  · have hx0 : 0 ≤ x := by omega
    by_cases hx2 : x < m
    · have hx3 : x.toNat < m := by omega
      by_cases hy : y < 0
      · have : ¬ (0 ≤ y) := by omega
        simp [hx, hx3, List.getElem?_replicate, hy, this]
      · have hy0 : 0 ≤ y := by omega
        by_cases hy2 : y < n
        · have hy3 : y.toNat < n := by omega
          simp [hx, hx3, List.getElem?_replicate, hy, hy3, hx0, hx2, hy0, hy2]
        · have hy3 : ¬ y.toNat < n := by omega
          simp [hx, hx3, List.getElem?_replicate, hy, hy3, hx0, hx2, hy0, hy2]
    · have hx3 : ¬ x.toNat < m := by omega
      simp [hx, hx3, List.getElem?_replicate, hx2]

theorem newMap_shows : Shows newMap (fun _ _ => False) := by
  intro x y
  have key : newMap.get x y =
      if InMap x y then some { blocked := true, blocksSight := true } else none := by
    unfold newMap
    rw [Board.get_replicate]
    have h1 : ((mapSizeX.toNat : Nat) : Int) = mapSizeX := by decide
    have h2 : ((mapSizeY.toNat : Nat) : Int) = mapSizeY := by decide
    rw [h1, h2]
    rfl
  refine ⟨fun hm => by simp [key, hm], fun _ hf => hf.elim, fun hm _ => by simp [key, hm]⟩

theorem carve_shows {b : Board} {P : Int → Int → Prop} (h : Shows b P) {x y : Int}
    (hm : InMap x y) :
    ∃ b1, carve x y b = some b1 ∧ Shows b1 (fun x1 y1 => P x1 y1 ∨ (x1 = x ∧ y1 = y)) := by
  obtain ⟨t, ht⟩ := h.get_isSome hm
  obtain ⟨b1, hb1, hg⟩ := carve_of_get b x y t ht
  refine ⟨b1, hb1, ?_⟩
  intro x1 y1
  obtain ⟨h1, h2, h3⟩ := h x1 y1
  rw [hg x1 y1]
  by_cases hxy : x1 = x ∧ y1 = y
  · obtain ⟨rfl, rfl⟩ := hxy
    simp [hm]
  · simp only [hxy, if_false, or_false]
    exact ⟨h1, h2, h3⟩

/-- A loop whose body digs the cells `Q i` at counter `i` digs the union of the `Q i`. -/
theorem forLoop_shows (body : Int → Board → Option Board) (Q : Int → Int → Int → Prop)
    (n : Nat) : ∀ (lo : Int) (b : Board) (P : Int → Int → Prop),
    (∀ i b1 P1, lo ≤ i → i < lo + n → Shows b1 P1 →
      ∃ b2, body i b1 = some b2 ∧ Shows b2 (fun x y => P1 x y ∨ Q i x y)) →
    Shows b P →
    ∃ b2, forLoop body n lo b = some b2 ∧
      Shows b2 (fun x y => P x y ∨ ∃ i, lo ≤ i ∧ i < lo + n ∧ Q i x y) := by
  induction n with
  | zero =>
    intro lo b P _ hb
    refine ⟨b, rfl, hb.congr ?_⟩
    intro x y _
    constructor
    · exact Or.inl
    · rintro (hp | ⟨i, h1, h2, _⟩)
      · exact hp
      · simp at h2; omega
  | succ n ih =>
    intro lo b P hbody hb
    obtain ⟨b1, hb1, hs1⟩ := hbody lo b P (le_refl _) (by push_cast; omega) hb
    obtain ⟨b2, hb2, hs2⟩ := ih (lo + 1) b1 _
      (fun i b3 P3 h1 h2 h3 => hbody i b3 P3 (by omega) (by push_cast; omega) h3) hs1
    refine ⟨b2, by simp [forLoop, hb1, hb2], hs2.congr ?_⟩
    intro x y _
    constructor
    · rintro ((hp | hq) | ⟨i, h1, h2, h3⟩)
      · exact Or.inl hp
      · exact Or.inr ⟨lo, le_refl _, by push_cast; omega, hq⟩
      · exact Or.inr ⟨i, by omega, by push_cast; omega, h3⟩
    · rintro (hp | ⟨i, h1, h2, h3⟩)
      · exact Or.inl (Or.inl hp)
      · by_cases hi : i = lo
        · subst hi
          exact Or.inl (Or.inr h3)
        · exact Or.inr ⟨i, by omega, by push_cast at h2; omega, h3⟩

theorem forRange_shows (body : Int → Board → Option Board) (Q : Int → Int → Int → Prop)
    (lo hi : Int) (b : Board) (P : Int → Int → Prop)
    (hbody : ∀ i b1 P1, lo ≤ i → i < hi → Shows b1 P1 →
      ∃ b2, body i b1 = some b2 ∧ Shows b2 (fun x y => P1 x y ∨ Q i x y))
    (hb : Shows b P) :
    ∃ b2, forRange lo hi body b = some b2 ∧
      Shows b2 (fun x y => P x y ∨ ∃ i, lo ≤ i ∧ i < hi ∧ Q i x y) := by
  obtain ⟨b2, hb2, hs2⟩ := forLoop_shows body Q (hi - lo).toNat lo b P
    (fun i b1 P1 h1 h2 h3 => hbody i b1 P1 h1 (by omega) h3) hb
  refine ⟨b2, hb2, hs2.congr ?_⟩
  intro x y _
  constructor
  · rintro (hp | ⟨i, h1, h2, h3⟩)
    · exact Or.inl hp
    · exact Or.inr ⟨i, h1, by omega, h3⟩
  · rintro (hp | ⟨i, h1, h2, h3⟩)
    · exact Or.inl hp
    · exact Or.inr ⟨i, h1, by omega, h3⟩

/-! ## What the carving functions dig -/

theorem createRoom_shows {b : Board} {P : Int → Int → Prop} (h : Shows b P) (room : Rect)
    (hin : ∀ x y, room.interior x y → InMap x y) :
    ∃ b1, createRoom room b = some b1 ∧ Shows b1 (fun x y => P x y ∨ room.interior x y) := by
  unfold createRoom
  obtain ⟨b1, hb1, hs1⟩ := forRange_shows
    (fun x b1 => forRange (room.y + 1) (room.y + room.h) (fun y b2 => carve x y b2) b1)
    (fun i x y => x = i ∧ room.y + 1 ≤ y ∧ y < room.y + room.h)
    (room.x + 1) (room.x + room.w) b P
    (by
      intro i b2 P2 hi1 hi2 hs
      obtain ⟨b3, hb3, hs3⟩ := forRange_shows (fun y b2 => carve i y b2)
        (fun j x y => x = i ∧ y = j) (room.y + 1) (room.y + room.h) b2 P2
        (by
          intro j b4 P4 hj1 hj2 hs4
          exact carve_shows hs4 (hin i j ⟨hi1, by omega, hj1, by omega⟩))
        hs
      refine ⟨b3, hb3, hs3.congr ?_⟩
      intro x y _
      constructor
      · rintro (hp | ⟨j, h1, h2, h3, h4⟩)
        · exact Or.inl hp
        · exact Or.inr ⟨h3, by omega, by omega⟩
      · rintro (hp | ⟨h1, h2, h3⟩)
        · exact Or.inl hp
        · exact Or.inr ⟨y, h2, h3, h1, rfl⟩)
    h
  refine ⟨b1, hb1, hs1.congr ?_⟩
  intro x y _
  unfold Rect.interior
  constructor
  · rintro (hp | ⟨i, h1, h2, h3, h4, h5⟩)
    · exact Or.inl hp
    · exact Or.inr ⟨by omega, by omega, h4, by omega⟩
  · rintro (hp | ⟨h1, h2, h3, h4⟩)
    · exact Or.inl hp
    · exact Or.inr ⟨x, h1, by omega, rfl, h3, by omega⟩

theorem min_max_between (a b x : Int) : (min a b ≤ x ∧ x < max a b + 1) ↔ Between a b x := by
  unfold min max Between
  split <;> split <;> omega

theorem horizontalTunnel_shows {b : Board} {P : Int → Int → Prop} (h : Shows b P)
    (x1 x2 y : Int) (h1 : InMap x1 y) (h2 : InMap x2 y) :
    ∃ b1, horizontalTunnel x1 x2 y b = some b1 ∧
      Shows b1 (fun x0 y0 => P x0 y0 ∨ (y0 = y ∧ Between x1 x2 x0)) := by
  unfold horizontalTunnel
  obtain ⟨b1, hb1, hs1⟩ := forRange_shows (fun x b1 => carve x y b1)
    (fun i x0 y0 => x0 = i ∧ y0 = y) (min x1 x2) (max x1 x2 + 1) b P
    (by
      intro i b2 P2 hi1 hi2 hs
      have hb := (min_max_between x1 x2 i).1 ⟨hi1, hi2⟩
      refine carve_shows hs ?_
      unfold InMap Between at *
      omega)
    h
  refine ⟨b1, hb1, hs1.congr ?_⟩
  intro x0 y0 _
  constructor
  · rintro (hp | ⟨i, h3, h4, h5, h6⟩)
    · exact Or.inl hp
    · subst h5
      exact Or.inr ⟨h6, (min_max_between x1 x2 x0).1 ⟨h3, h4⟩⟩
  · rintro (hp | ⟨h3, h4⟩)
    · exact Or.inl hp
    · have := (min_max_between x1 x2 x0).2 h4
      exact Or.inr ⟨x0, this.1, this.2, rfl, h3⟩

theorem verticalTunnel_shows {b : Board} {P : Int → Int → Prop} (h : Shows b P)
    (y1 y2 x : Int) (h1 : InMap x y1) (h2 : InMap x y2) :
    ∃ b1, verticalTunnel y1 y2 x b = some b1 ∧
      Shows b1 (fun x0 y0 => P x0 y0 ∨ (x0 = x ∧ Between y1 y2 y0)) := by
  unfold verticalTunnel
  obtain ⟨b1, hb1, hs1⟩ := forRange_shows (fun y b1 => carve x y b1)
    (fun i x0 y0 => x0 = x ∧ y0 = i) (min y1 y2) (max y1 y2 + 1) b P
    (by
      intro i b2 P2 hi1 hi2 hs
      have hb := (min_max_between y1 y2 i).1 ⟨hi1, hi2⟩
      refine carve_shows hs ?_
      unfold InMap Between at *
      omega)
    h
  refine ⟨b1, hb1, hs1.congr ?_⟩
  intro x0 y0 _
  constructor
  · rintro (hp | ⟨i, h3, h4, h5, h6⟩)
    · exact Or.inl hp
    · subst h6
      exact Or.inr ⟨h5, (min_max_between y1 y2 y0).1 ⟨h3, h4⟩⟩
  · rintro (hp | ⟨h3, h4⟩)
    · exact Or.inl hp
    · have := (min_max_between y1 y2 y0).2 h4
      exact Or.inr ⟨y0, this.1, this.2, h3, rfl⟩

/-! ## Random draws and candidates -/

theorem Intn_pos (n : Int) (g : Rng) (hn : 0 < n) :
    ∃ v g1, g.Intn n = some (v, g1) ∧ 0 ≤ v ∧ v < n := by
  refine ⟨(g.draws g.pos : Int) % n, { g with pos := g.pos + 1 }, ?_, ?_, ?_⟩
  · unfold Rng.Intn
    have : ¬ n ≤ 0 := by omega
    simp [this]
  · exact Int.emod_nonneg _ (by omega)
  · exact Int.emod_lt_of_pos _ hn

theorem sampleRoom_sampled (g : Rng) : ∃ r g1, sampleRoom g = some (r, g1) ∧ r.Sampled := by
  unfold sampleRoom randIntRange
  obtain ⟨w, g1, hw, hw1, hw2⟩ := Intn_pos (roomMaxSize - roomMinSize) g (by decide)
  obtain ⟨h, g2, hh, hh1, hh2⟩ := Intn_pos (roomMaxSize - roomMinSize) g1 (by decide)
  have e1 : roomMaxSize - roomMinSize = 4 := by decide
  have e2 : roomMinSize = 6 := rfl
  have e3 : mapSizeX = 80 := rfl
  have e4 : mapSizeY = 45 := by decide
  rw [e1] at hw2 hh2
  obtain ⟨x, g3, hx, hx1, hx2⟩ := Intn_pos (mapSizeX - (w + roomMinSize) - 1) g2 (by omega)
  obtain ⟨y, g4, hy, hy1, hy2⟩ := Intn_pos (mapSizeY - (h + roomMinSize) - 1) g3 (by omega)
  refine ⟨{ x := x, y := y, w := w + roomMinSize, h := h + roomMinSize }, g4,
    by simp [hw, hh, hx, hy], ?_⟩
  unfold Rect.Sampled
  simp only
  omega

/-! ## Geometry of sampled rooms -/

theorem Rect.intersect_comm (a b : Rect) : a.intersect b = b.intersect a := by
  unfold Rect.intersect
  simp only [ge_iff_le]
  rw [Bool.eq_iff_iff]
  simp only [Bool.and_eq_true, decide_eq_true_eq]
  tauto

theorem failedAgainst_eq_false (newRoom : Rect) (rooms : List Rect) :
    failedAgainst newRoom rooms = false ↔ ∀ r, r ∈ rooms → newRoom.intersect r = false := by
  induction rooms with
  | nil => simp [failedAgainst]
  | cons a l ih =>
    unfold failedAgainst
    by_cases h : newRoom.intersect a = true
    · simp [h]
    · simp [h, ih]

theorem Rect.Sampled.center_eq {r : Rect} (h : r.Sampled) :
    r.center = ((r.x + (r.x + r.h)) / 2, (r.y + (r.y + r.w)) / 2) := by
  unfold Rect.Sampled at h
  have e1 : mapSizeX = 80 := rfl
  have e2 : mapSizeY = 45 := by decide
  have hx : wrap64 (r.x + wrap64 (r.x + r.h)) = r.x + (r.x + r.h) := by
    unfold wrap64
    omega
  have hy : wrap64 (r.y + wrap64 (r.y + r.w)) = r.y + (r.y + r.w) := by
    unfold wrap64
    omega
  unfold Rect.center
  simp only
  rw [hx, hy, Int.tdiv_eq_ediv (by omega) (by omega), Int.tdiv_eq_ediv (by omega) (by omega)]

theorem wrap64_of_inInt {z : Int} (h : InInt z) : wrap64 z = z := by
  unfold InInt at h
  unfold wrap64
  omega

theorem Rect.Sampled.corners_inInt {r : Rect} (h : r.Sampled) :
    InInt (r.x + r.w) ∧ InInt (r.y + r.h) := by
  unfold Rect.Sampled at h
  have e1 : mapSizeX = 80 := rfl
  have e2 : mapSizeY = 45 := by decide
  unfold InInt
  omega

theorem Rect.Sampled.not_meet {a b : Rect} (ha : a.Sampled) (hb : b.Sampled)
    (h : a.intersect b = false) :
    ¬ (a.x ≤ b.x + b.w ∧ a.x + a.w ≥ b.x ∧ a.y ≤ b.y + b.h ∧ a.y + a.h ≥ b.y) := by
  unfold Rect.intersect at h
  rw [wrap64_of_inInt ha.corners_inInt.1, wrap64_of_inInt ha.corners_inInt.2,
    wrap64_of_inInt hb.corners_inInt.1, wrap64_of_inInt hb.corners_inInt.2] at h
  simp only [ge_iff_le, Bool.and_eq_false_imp, Bool.and_eq_true, decide_eq_true_eq,
    decide_eq_false_iff_not, not_le, and_imp] at h
  omega

theorem Rect.Sampled.center_interior {r : Rect} (h : r.Sampled) :
    r.interior r.center.1 r.center.2 := by
  rw [h.center_eq]
  unfold Rect.Sampled at h
  unfold Rect.interior
  simp only
  omega

theorem Rect.Sampled.interior_inner {r : Rect} (h : r.Sampled) {x y : Int}
    (hi : r.interior x y) : 1 ≤ x ∧ x ≤ mapSizeX - 2 ∧ 1 ≤ y ∧ y ≤ mapSizeY - 2 := by
  unfold Rect.Sampled at h
  unfold Rect.interior at hi
  omega

theorem inMap_of_inner {x y : Int}
    (h : 1 ≤ x ∧ x ≤ mapSizeX - 2 ∧ 1 ≤ y ∧ y ≤ mapSizeY - 2) : InMap x y := by
  unfold InMap
  omega

theorem Rect.Sampled.center_inner {r : Rect} (h : r.Sampled) :
    1 ≤ r.center.1 ∧ r.center.1 ≤ mapSizeX - 2 ∧ 1 ≤ r.center.2 ∧ r.center.2 ≤ mapSizeY - 2 :=
  h.interior_inner h.center_interior

theorem Corridor.inner {c : Int} {p n : Int × Int} {x y : Int}
    (hp : 1 ≤ p.1 ∧ p.1 ≤ mapSizeX - 2 ∧ 1 ≤ p.2 ∧ p.2 ≤ mapSizeY - 2)
    (hn : 1 ≤ n.1 ∧ n.1 ≤ mapSizeX - 2 ∧ 1 ≤ n.2 ∧ n.2 ≤ mapSizeY - 2)
    (h : Corridor c p n x y) : 1 ≤ x ∧ x ≤ mapSizeX - 2 ∧ 1 ≤ y ∧ y ≤ mapSizeY - 2 := by
  unfold Corridor RowFirst ColumnFirst Between at h
  omega

/-! ## The dug cells as rooms are appended -/

theorem Dug_nil (x y : Int) : ¬ Dug [] [] x y := by
  unfold Dug
  simp

theorem Dug_single (r : Rect) (x y : Int) : Dug [r] [] x y ↔ r.interior x y := by
  unfold Dug
  simp

theorem Dug_snoc (rooms : List Rect) (flips : List Int) (p n : Rect) (c : Int) (x y : Int)
    (hlen : flips.length + 1 = rooms.length) (hp : rooms[rooms.length - 1]? = some p) :
    Dug (rooms ++ [n]) (flips ++ [c]) x y ↔
      (Dug rooms flips x y ∨ n.interior x y) ∨ Corridor c p.center n.center x y := by
  unfold Dug
  constructor
  · rintro (⟨r, hr, hi⟩ | ⟨k, p1, n1, c1, h1, h2, h3, h4⟩)
    · rw [List.mem_append] at hr
      rcases hr with hr | hr
      · exact Or.inl (Or.inl (Or.inl ⟨r, hr, hi⟩))
      · simp only [List.mem_singleton] at hr
        subst hr
        exact Or.inl (Or.inr hi)
    · rw [List.getElem?_append] at h1 h2 h3
      by_cases hk : k + 1 < rooms.length
      · have hk1 : k < rooms.length := by omega
        have hk2 : k < flips.length := by omega
        simp only [hk, hk1, hk2, if_true] at h1 h2 h3
        exact Or.inl (Or.inl (Or.inr ⟨k, p1, n1, c1, h1, h2, h3, h4⟩))
      · by_cases hk' : k + 1 = rooms.length
        · have hk1 : k < rooms.length := by omega
          have hk2 : ¬ k < flips.length := by omega
          have hk3 : k = rooms.length - 1 := by omega
          have hk4 : k - flips.length = 0 := by omega
          have hk5 : k + 1 - rooms.length = 0 := by omega
          simp only [hk, hk1, hk2, if_true, if_false, hk4, hk5, List.getElem?_cons_zero,
            Option.some.injEq] at h1 h2 h3
          subst h2 h3
          rw [hk3, hp] at h1
          cases h1
          exact Or.inr h4
        · simp only [hk, if_false] at h2
          rw [List.getElem?_eq_none (by simp; omega)] at h2
          cases h2
  · rintro (((⟨r, hr, hi⟩ | ⟨k, p1, n1, c1, h1, h2, h3, h4⟩) | hi) | hc)
    · exact Or.inl ⟨r, List.mem_append_left _ hr, hi⟩
    · have hk1 : k + 1 < rooms.length := by
        by_contra hc
        rw [List.getElem?_eq_none (by omega)] at h2
        cases h2
      refine Or.inr ⟨k, p1, n1, c1, ?_, ?_, ?_, h4⟩
      · rw [List.getElem?_append]; simp [show k < rooms.length by omega, h1]
      · rw [List.getElem?_append]; simp [hk1, h2]
      · rw [List.getElem?_append]; simp [show k < flips.length by omega, h3]
    · exact Or.inl ⟨n, by simp, hi⟩
    · refine Or.inr ⟨rooms.length - 1, p, n, c, ?_, ?_, ?_, hc⟩
      · rw [List.getElem?_append]; simp [show rooms.length - 1 < rooms.length by omega, hp]
      · rw [List.getElem?_append]
        simp [show ¬ (rooms.length - 1 + 1 < rooms.length) by omega,
          show rooms.length - 1 + 1 - rooms.length = 0 by omega]
      · rw [List.getElem?_append]
        simp [show ¬ (rooms.length - 1 < flips.length) by omega,
          show rooms.length - 1 - flips.length = 0 by omega]

/-! ## One attempt keeps the invariant -/

theorem index_last {α : Type} (l : List α) (hne : l ≠ []) :
    index l ((l.length : Int) - 1) = l[l.length - 1]? := by
  have : 0 < l.length := List.length_pos.2 hne
  unfold index
  have h1 : ¬ ((l.length : Int) - 1 < 0) := by omega
  have h2 : ((l.length : Int) - 1).toNat = l.length - 1 := by omega
  simp only [h1, if_false, h2]

theorem reject_inv (w0 : World) (k : Nat) (s : MapGen) (g : Rng) (h : Inv w0 k s)
    (hne : s.rooms ≠ []) :
    Inv w0 (k + 1) { s with world := { s.world with rng := g } } :=
  { num := h.num
    flipsLen := h.flipsLen
    coin := h.coin
    sampled := h.sampled
    apart := h.apart
    board := h.board
    count := Nat.le_succ_of_le h.count
    nonempty := fun _ => hne
    fresh := fun he => absurd he hne
    first := fun r hr => by
      obtain ⟨h1, obj, h2, h3⟩ := h.first r hr
      exact ⟨h1, obj, h2, h3⟩
    player := h.player
    objects := h.objects }

theorem accept_first_inv (w0 : World) (k : Nat) (s : MapGen) (newRoom : Rect) (g : Rng)
    (hw : ∃ obj, w0.heap[w0.player]? = some obj) (h : Inv w0 k s)
    (hs : sampleRoom s.world.rng = some (newRoom, g)) (hsam : newRoom.Sampled)
    (he : s.rooms = []) :
    ∃ s1, accept newRoom { s with world := { s.world with rng := g } } = some s1 ∧
      Inv w0 (k + 1) s1 := by
  obtain ⟨obj, hobj⟩ := hw
  obtain ⟨b1, hb1, hs1⟩ := createRoom_shows h.board newRoom
    (fun x y hi => inMap_of_inner (hsam.interior_inner hi))
  have hnum : s.numRooms = 0 := by rw [h.num, he]; rfl
  have hfl : s.flips = [] := by
    rcases h.flipsLen with h1 | h1
    · rw [he] at h1; simp at h1
    · exact h1.2
  obtain ⟨hrng, hheap⟩ := h.fresh he
  have hpl : s.world.heap[s.world.player]? = some obj := by rw [hheap, h.player]; exact hobj
  refine ⟨_, by simp [accept, hb1, hnum, setPlayer, hpl]; rfl, ?_⟩
  refine
    { num := by simp [hnum, he]
      flipsLen := by simp [he, hfl]
      coin := by simp [hfl]
      sampled := by simp [he, hsam]
      apart := by simp [he]
      board := ?_
      count := by simp [he]
      nonempty := by simp
      fresh := by simp
      first := ?_
      player := h.player
      objects := h.objects }
  · simp only [he, hfl, List.nil_append]
    refine hs1.congr ?_
    intro x y _
    rw [Dug_single, he, hfl]
    simp [Dug_nil]
  · intro r hr
    simp only [he, List.nil_append, List.head?_cons, Option.some.injEq] at hr
    subst hr
    refine ⟨⟨g, by rw [← hrng]; exact hs⟩, obj, hobj, ?_⟩
    simp [hheap, h.player]

theorem accept_next_inv (w0 : World) (k : Nat) (s : MapGen) (newRoom : Rect) (g : Rng)
    (h : Inv w0 k s) (hsam : newRoom.Sampled) (hne : s.rooms ≠ [])
    (hf : ∀ r, r ∈ s.rooms → newRoom.intersect r = false) :
    ∃ s1, accept newRoom { s with world := { s.world with rng := g } } = some s1 ∧
      Inv w0 (k + 1) s1 := by
  obtain ⟨b1, hb1, hs1⟩ := createRoom_shows h.board newRoom
    (fun x y hi => inMap_of_inner (hsam.interior_inner hi))
  have hpos : 0 < s.rooms.length := List.length_pos.2 hne
  have hnum : ¬ (s.numRooms = 0) := by rw [h.num]; omega
  have hlen : s.flips.length + 1 = s.rooms.length := by
    rcases h.flipsLen with h1 | h1
    · exact h1
    · exact absurd h1.1 hne
  obtain ⟨prev, hprev⟩ : ∃ p, s.rooms[s.rooms.length - 1]? = some p :=
    ⟨_, List.getElem?_eq_getElem (by omega)⟩
  have hidx : index s.rooms (s.numRooms - 1) = some prev := by
    rw [h.num, index_last _ hne, hprev]
  have hpsam : prev.Sampled := h.sampled prev (List.getElem?_mem hprev)
  obtain ⟨c, g1, hc, hc0, hc1⟩ := Intn_pos 2 g (by decide)
  have hpc := hpsam.center_inner
  have hnc := hsam.center_inner
  have m1 : InMap prev.center.1 prev.center.2 := inMap_of_inner hpc
  have m2 : InMap newRoom.center.1 newRoom.center.2 := inMap_of_inner hnc
  have m3 : InMap newRoom.center.1 prev.center.2 := inMap_of_inner ⟨hnc.1, hnc.2.1, hpc.2.2⟩
  have m4 : InMap prev.center.1 newRoom.center.2 := inMap_of_inner ⟨hpc.1, hpc.2.1, hnc.2.2⟩
  obtain ⟨b2, hb2, hs2⟩ : ∃ b2,
      (if c = 1 then
          (horizontalTunnel prev.center.1 newRoom.center.1 prev.center.2 b1).bind
            (verticalTunnel prev.center.2 newRoom.center.2 newRoom.center.1)
        else
          (verticalTunnel prev.center.2 newRoom.center.2 prev.center.1 b1).bind
            (horizontalTunnel prev.center.1 newRoom.center.1 newRoom.center.2)) = some b2 ∧
      Shows b2 (Dug (s.rooms ++ [newRoom]) (s.flips ++ [c])) := by
    by_cases hc1 : c = 1
    · obtain ⟨b2, hb2, hs2⟩ := horizontalTunnel_shows hs1 prev.center.1 newRoom.center.1
        prev.center.2 m1 m3
      obtain ⟨b3, hb3, hs3⟩ := verticalTunnel_shows hs2 prev.center.2 newRoom.center.2
        newRoom.center.1 m3 m2
      refine ⟨b3, by simp [hc1, hb2, hb3], hs3.congr ?_⟩
      intro x y _
      rw [Dug_snoc _ _ prev _ _ _ _ hlen hprev]
      unfold Corridor RowFirst
      simp only [hc1, true_and, ne_eq, not_true_eq_false, false_and, or_false]
      tauto
    · obtain ⟨b2, hb2, hs2⟩ := verticalTunnel_shows hs1 prev.center.2 newRoom.center.2
        prev.center.1 m1 m4
      obtain ⟨b3, hb3, hs3⟩ := horizontalTunnel_shows hs2 prev.center.1 newRoom.center.1
        newRoom.center.2 m4 m2
      refine ⟨b3, by simp [hc1, hb2, hb3], hs3.congr ?_⟩
      intro x y _
      rw [Dug_snoc _ _ prev _ _ _ _ hlen hprev]
      unfold Corridor ColumnFirst
      simp only [hc1, false_and, ne_eq, not_false_eq_true, true_and, false_or]
      tauto
  refine ⟨_, by simp [accept, hb1, hnum, connect, hidx, hc, hb2]; rfl, ?_⟩
  refine
    { num := by simp [h.num]
      flipsLen := by simp [hlen]
      coin := ?_
      sampled := ?_
      apart := ?_
      board := hs2
      count := by simp; exact h.count
      nonempty := by simp
      fresh := by simp
      first := ?_
      player := h.player
      objects := h.objects }
  · intro c1 hc1
    simp only [List.mem_append, List.mem_singleton] at hc1
    rcases hc1 with hc1 | hc1
    · exact h.coin c1 hc1
    · subst hc1; omega
  · intro r hr
    simp only [List.mem_append, List.mem_singleton] at hr
    rcases hr with hr | hr
    · exact h.sampled r hr
    · subst hr; exact hsam
  · simp only
    rw [List.pairwise_append]
    refine ⟨h.apart, List.pairwise_singleton _ _, ?_⟩
    intro a ha b hb
    simp only [List.mem_singleton] at hb
    subst hb
    have := hf a ha
    exact ⟨by rw [Rect.intersect_comm]; exact this, this⟩
  · intro r hr
    have hr1 : s.rooms.head? = some r := by
      cases hl : s.rooms with
      | nil => exact absurd hl hne
      | cons a l => simpa [hl] using hr
    obtain ⟨h1, obj, h2, h3⟩ := h.first r hr1
    exact ⟨h1, obj, h2, h3⟩

theorem attempt_inv (w0 : World) (hw : ∃ obj, w0.heap[w0.player]? = some obj) (k : Nat)
    (s : MapGen) (h : Inv w0 k s) : ∃ s1, attempt s = some s1 ∧ Inv w0 (k + 1) s1 := by
  obtain ⟨newRoom, g, hs, hsam⟩ := sampleRoom_sampled s.world.rng
  unfold attempt
  simp only [hs]
  by_cases hf : failedAgainst newRoom s.rooms = false
  · simp only [hf, beq_self_eq_true, if_true]
    by_cases he : s.rooms = []
    · exact accept_first_inv w0 k s newRoom g hw h hs hsam he
    · exact accept_next_inv w0 k s newRoom g h hsam he ((failedAgainst_eq_false _ _).1 hf)
  · have hne : s.rooms ≠ [] := by
      intro he
      rw [he] at hf
      simp [failedAgainst] at hf
    simp only [Bool.not_eq_false] at hf
    refine ⟨_, by simp [hf], reject_inv w0 k s g h hne⟩

/-! ## The invariant holds when `makeMap` returns -/

theorem forLoop_attempt_inv (w0 : World) (hw : ∃ obj, w0.heap[w0.player]? = some obj)
    (n : Nat) : ∀ (i : Int) (k : Nat) (s : MapGen), Inv w0 k s →
      ∃ s1, forLoop (fun _ s2 => attempt s2) n i s = some s1 ∧ Inv w0 (k + n) s1 := by
  induction n with
  | zero =>
    intro i k s h
    exact ⟨s, rfl, h⟩
  | succ n ih =>
    intro i k s h
    obtain ⟨s1, hs1, h1⟩ := attempt_inv w0 hw k s h
    obtain ⟨s2, hs2, h2⟩ := ih (i + 1) (k + 1) s1 h1
    refine ⟨s2, by simp [forLoop, hs1, hs2], ?_⟩
    have e : k + (n + 1) = k + 1 + n := by omega
    rw [e]
    exact h2

theorem makeMapGen_inv (w : World) (hp : w.player < w.heap.length) :
    ∃ s, makeMapGen w = some s ∧ Inv w 30 s := by
  have hw : ∃ obj, w.heap[w.player]? = some obj := ⟨_, List.getElem?_eq_getElem hp⟩
  have h0 : Inv w 0
      { world := { w with board := newMap }, rooms := [], numRooms := 0, flips := [] } :=
    { num := rfl
      flipsLen := Or.inr ⟨rfl, rfl⟩
      coin := by simp
      sampled := by simp
      apart := List.Pairwise.nil
      board := newMap_shows.congr (fun x y _ => by simp [Dug_nil])
      count := le_refl _
      nonempty := fun hk => absurd hk (lt_irrefl _)
      fresh := fun _ => ⟨rfl, rfl⟩
      first := by simp
      player := rfl
      objects := rfl }
  obtain ⟨s, hs, h⟩ := forLoop_attempt_inv w hw 30 0 0 _ h0
  refine ⟨s, ?_, by simpa using h⟩
  unfold makeMapGen forRange
  have e : (maxRooms - 0).toNat = 30 := by decide
  rw [e]
  exact hs

theorem Inv.passable_iff_dug {w0 : World} {k : Nat} {s : MapGen} (h : Inv w0 k s) (x y : Int) :
    Passable s.world.board x y ↔ InMap x y ∧ Dug s.rooms s.flips x y :=
  h.board.passable_iff x y

theorem Inv.dug_inner {w0 : World} {k : Nat} {s : MapGen} (h : Inv w0 k s) {x y : Int}
    (hd : Dug s.rooms s.flips x y) :
    1 ≤ x ∧ x ≤ mapSizeX - 2 ∧ 1 ≤ y ∧ y ≤ mapSizeY - 2 := by
  rcases hd with ⟨r, hr, hi⟩ | ⟨k, p, n, c, h1, h2, h3, h4⟩
  · exact (h.sampled r hr).interior_inner hi
  · exact Corridor.inner (h.sampled p (List.getElem?_mem h1)).center_inner
      (h.sampled n (List.getElem?_mem h2)).center_inner h4

theorem Inv.passable_of_dug {w0 : World} {k : Nat} {s : MapGen} (h : Inv w0 k s) {x y : Int}
    (hd : Dug s.rooms s.flips x y) : Passable s.world.board x y :=
  (h.passable_iff_dug x y).2 ⟨inMap_of_inner (h.dug_inner hd), hd⟩

theorem Inv.flip_at {w0 : World} {k : Nat} {s : MapGen} (h : Inv w0 k s) {i : Nat} {n : Rect}
    (hn : s.rooms[i + 1]? = some n) : ∃ c, s.flips[i]? = some c ∧ (c = 0 ∨ c = 1) := by
  have hi : i + 1 < s.rooms.length := by
    by_contra hc
    rw [List.getElem?_eq_none (by omega)] at hn
    cases hn
  have hlen : s.flips.length + 1 = s.rooms.length := by
    rcases h.flipsLen with h1 | h1
    · exact h1
    · rw [h1.1] at hi; simp at hi
  have hk : i < s.flips.length := by omega
  exact ⟨s.flips[i], List.getElem?_eq_getElem hk, h.coin _ (List.getElem_mem hk)⟩

/-- C1: after `makeMap`, any two distinct accepted rooms `a` and `b` satisfy
`a.intersect(b) == false` and `b.intersect(a) == false`, whatever the random draws. -/
theorem makeMap_rooms_apart (w : World) (hp : w.player < w.heap.length) :
    ∃ s, makeMapGen w = some s ∧
      ∀ (i j : Nat) (a b : Rect), i ≠ j → s.rooms[i]? = some a → s.rooms[j]? = some b →
        a.intersect b = false ∧ b.intersect a = false := by
  obtain ⟨s, hs, h⟩ := makeMapGen_inv w hp
  refine ⟨s, hs, ?_⟩
  have key : ∀ (i j : Nat) (a b : Rect), i < j → s.rooms[i]? = some a → s.rooms[j]? = some b →
      a.intersect b = false ∧ b.intersect a = false := by
    intro i j a b hij ha hb
    have hj : j < s.rooms.length := by
      by_contra hc
      rw [List.getElem?_eq_none (by omega)] at hb
      cases hb
    have hi : i < s.rooms.length := by omega
    have := List.pairwise_iff_getElem.1 h.apart i j hi hj hij
    rw [List.getElem?_eq_getElem hi] at ha
    rw [List.getElem?_eq_getElem hj] at hb
    cases ha
    cases hb
    exact this
  intro i j a b hij ha hb
  rcases Nat.lt_or_gt_of_ne hij with hlt | hgt
  · exact key i j a b hlt ha hb
  · exact (key j i b a hgt hb ha).symm

theorem makeMap_rooms_apart_witness :
    (initWorld (fun i => 7 * i + 3)).player < (initWorld (fun i => 7 * i + 3)).heap.length ∧
    ∃ s, makeMapGen (initWorld (fun i => 7 * i + 3)) = some s ∧
      ∀ (i j : Nat) (a b : Rect), i ≠ j → s.rooms[i]? = some a → s.rooms[j]? = some b →
        a.intersect b = false ∧ b.intersect a = false :=
  ⟨by decide, makeMap_rooms_apart (initWorld (fun i => 7 * i + 3)) (by decide)⟩

/-! ## Walking along corridors -/

theorem Step.symm {b : Board} {a c : Int × Int} (h : Step b a c) : Step b c a := by
  obtain ⟨h1, h2, h3⟩ := h
  refine ⟨?_, h3, h2⟩
  unfold Adjacent at *
  omega

theorem walk_symm {b : Board} {a c : Int × Int} (h : Relation.ReflTransGen (Step b) a c) :
    Relation.ReflTransGen (Step b) c a :=
  Relation.ReflTransGen.symmetric (fun _ _ hs => Step.symm hs) h

theorem walk_row_up (b : Board) (y x1 : Int) (n : Nat)
    (h : ∀ x, x1 ≤ x → x ≤ x1 + n → Passable b x y) :
    Relation.ReflTransGen (Step b) (x1, y) (x1 + n, y) := by
  induction n with
  | zero => simp; exact Relation.ReflTransGen.refl
  | succ n ih =>
    have h1 := ih (fun x hx1 hx2 => h x hx1 (by push_cast; omega))
    refine Relation.ReflTransGen.tail h1 ⟨?_, ?_, ?_⟩
    · exact Or.inr ⟨rfl, Or.inr (by push_cast; ring)⟩
    · exact h _ (by omega) (by push_cast; omega)
    · exact h _ (by push_cast; omega) (by push_cast; omega)

theorem walk_column_up (b : Board) (x y1 : Int) (n : Nat)
    (h : ∀ y, y1 ≤ y → y ≤ y1 + n → Passable b x y) :
    Relation.ReflTransGen (Step b) (x, y1) (x, y1 + n) := by
  induction n with
  | zero => simp; exact Relation.ReflTransGen.refl
  | succ n ih =>
    have h1 := ih (fun y hy1 hy2 => h y hy1 (by push_cast; omega))
    refine Relation.ReflTransGen.tail h1 ⟨?_, ?_, ?_⟩
    · exact Or.inl ⟨rfl, Or.inr (by push_cast; ring)⟩
    · exact h _ (by omega) (by push_cast; omega)
    · exact h _ (by push_cast; omega) (by push_cast; omega)

theorem walk_row (b : Board) (y x1 x2 : Int) (h : ∀ x, Between x1 x2 x → Passable b x y) :
    Relation.ReflTransGen (Step b) (x1, y) (x2, y) := by
  unfold Between at h
  by_cases hle : x1 ≤ x2
  · have := walk_row_up b y x1 (x2 - x1).toNat (fun x h1 h2 => h x (Or.inl ⟨h1, by omega⟩))
    have e : x1 + ((x2 - x1).toNat : Int) = x2 := by omega
    rw [e] at this
    exact this
  · have := walk_row_up b y x2 (x1 - x2).toNat (fun x h1 h2 => h x (Or.inr ⟨h1, by omega⟩))
    have e : x2 + ((x1 - x2).toNat : Int) = x1 := by omega
    rw [e] at this
    exact walk_symm this

theorem walk_column (b : Board) (x y1 y2 : Int) (h : ∀ y, Between y1 y2 y → Passable b x y) :
    Relation.ReflTransGen (Step b) (x, y1) (x, y2) := by
  unfold Between at h
  by_cases hle : y1 ≤ y2
  · have := walk_column_up b x y1 (y2 - y1).toNat (fun y h1 h2 => h y (Or.inl ⟨h1, by omega⟩))
    have e : y1 + ((y2 - y1).toNat : Int) = y2 := by omega
    rw [e] at this
    exact this
  · have := walk_column_up b x y2 (y1 - y2).toNat (fun y h1 h2 => h y (Or.inr ⟨h1, by omega⟩))
    have e : y2 + ((y1 - y2).toNat : Int) = y1 := by omega
    rw [e] at this
    exact walk_symm this

theorem walk_rowFirst (b : Board) (p n : Int × Int)
    (h : ∀ x y, RowFirst p n x y → Passable b x y) :
    Relation.ReflTransGen (Step b) p n := by
  have h1 := walk_row b p.2 p.1 n.1 (fun x hx => h x p.2 (Or.inl ⟨rfl, hx⟩))
  have h2 := walk_column b n.1 p.2 n.2 (fun y hy => h n.1 y (Or.inr ⟨rfl, hy⟩))
  exact h1.trans h2

theorem walk_columnFirst (b : Board) (p n : Int × Int)
    (h : ∀ x y, ColumnFirst p n x y → Passable b x y) :
    Relation.ReflTransGen (Step b) p n := by
  have h1 := walk_column b p.1 p.2 n.2 (fun y hy => h p.1 y (Or.inl ⟨rfl, hy⟩))
  have h2 := walk_row b n.2 p.1 n.1 (fun x hx => h x n.2 (Or.inr ⟨rfl, hx⟩))
  exact h1.trans h2

theorem Inv.corridor_passable {w0 : World} {k : Nat} {s : MapGen} (h : Inv w0 k s)
    {i : Nat} {p n : Rect} {c : Int} (hp : s.rooms[i]? = some p)
    (hn : s.rooms[i + 1]? = some n) (hc : s.flips[i]? = some c) (x y : Int)
    (hxy : Corridor c p.center n.center x y) : Passable s.world.board x y :=
  h.passable_of_dug (Or.inr ⟨i, p, n, c, hp, hn, hc, hxy⟩)

theorem Inv.walk_next {w0 : World} {k : Nat} {s : MapGen} (h : Inv w0 k s)
    {i : Nat} {p n : Rect} (hp : s.rooms[i]? = some p) (hn : s.rooms[i + 1]? = some n) :
    Relation.ReflTransGen (Step s.world.board) p.center n.center := by
  obtain ⟨c, hc, hc01⟩ := h.flip_at hn
  by_cases hc1 : c = 1
  · exact walk_rowFirst _ _ _
      (fun x y hxy => h.corridor_passable hp hn hc x y (Or.inl ⟨hc1, hxy⟩))
  · exact walk_columnFirst _ _ _
      (fun x y hxy => h.corridor_passable hp hn hc x y (Or.inr ⟨hc1, hxy⟩))

theorem Inv.walk_later {w0 : World} {k : Nat} {s : MapGen} (h : Inv w0 k s) (d : Nat) :
    ∀ (i : Nat) (a b : Rect), s.rooms[i]? = some a → s.rooms[i + d]? = some b →
      Relation.ReflTransGen (Step s.world.board) a.center b.center := by
  induction d with
  | zero =>
    intro i a b ha hb
    simp only [Nat.add_zero] at hb
    rw [ha] at hb
    cases hb
    exact Relation.ReflTransGen.refl
  | succ d ih =>
    intro i a b ha hb
    have hlt : i + (d + 1) < s.rooms.length := by
      by_contra hc
      rw [List.getElem?_eq_none (by omega)] at hb
      cases hb
    have hm : i + d < s.rooms.length := by omega
    have h1 := ih i a _ ha (List.getElem?_eq_getElem hm)
    have h2 := h.walk_next (List.getElem?_eq_getElem hm) (by rw [← Nat.add_assoc] at hb; exact hb)
    exact h1.trans h2

/-- C2: in the board `makeMap` leaves, the centres of any two accepted rooms are passable
and joined by a path of passable cells in which each cell is the row or column neighbour
of the one before; this covers the rooms consecutive in acceptance order. -/
theorem makeMap_centers_joined (w : World) (hp : w.player < w.heap.length) :
    ∃ s, makeMapGen w = some s ∧
      ∀ (i j : Nat) (a b : Rect), s.rooms[i]? = some a → s.rooms[j]? = some b →
        Joined s.world.board a.center b.center := by
  obtain ⟨s, hs, h⟩ := makeMapGen_inv w hp
  refine ⟨s, hs, ?_⟩
  intro i j a b ha hb
  refine ⟨h.passable_of_dug (Or.inl ⟨a, List.getElem?_mem ha,
    (h.sampled a (List.getElem?_mem ha)).center_interior⟩), ?_⟩
  by_cases hij : i ≤ j
  · obtain ⟨d, rfl⟩ := Nat.exists_eq_add_of_le hij
    exact h.walk_later d i a b ha hb
  · obtain ⟨d, rfl⟩ := Nat.exists_eq_add_of_le (Nat.le_of_not_le hij)
    exact walk_symm (h.walk_later d j b a hb ha)

theorem makeMap_centers_joined_witness :
    (initWorld (fun i => 5 * i + 1)).player < (initWorld (fun i => 5 * i + 1)).heap.length ∧
    ∃ s, makeMapGen (initWorld (fun i => 5 * i + 1)) = some s ∧
      ∀ (i j : Nat) (a b : Rect), s.rooms[i]? = some a → s.rooms[j]? = some b →
        Joined s.world.board a.center b.center :=
  ⟨by decide, makeMap_centers_joined (initWorld (fun i => 5 * i + 1)) (by decide)⟩

/-! ## The player after `makeMap` -/

theorem Inv.player_at {w0 : World} {k : Nat} {s : MapGen} (h : Inv w0 k s) (hk : 0 < k) :
    ∃ r g obj, sampleRoom w0.rng = some (r, g) ∧ s.rooms.head? = some r ∧
      s.world.heap[s.world.player]? = some obj ∧ obj.x = r.center.1 ∧ obj.y = r.center.2 := by
  have hne := h.nonempty hk
  obtain ⟨r, hr⟩ : ∃ r, s.rooms.head? = some r := by
    cases hl : s.rooms with
    | nil => exact absurd hl hne
    | cons a l => exact ⟨a, rfl⟩
  obtain ⟨⟨g, hg⟩, obj, hobj, hheap⟩ := h.first r hr
  have hlt : w0.player < w0.heap.length := by
    by_contra hc
    rw [List.getElem?_eq_none (by omega)] at hobj
    cases hobj
  refine ⟨r, g, { obj with x := r.center.1, y := r.center.2 }, hg, hr, ?_, rfl, rfl⟩
  rw [hheap, h.player, List.getElem?_set_self hlt]

theorem Inv.standing {w0 : World} {k : Nat} {s : MapGen} (h : Inv w0 k s) (hk : 0 < k) :
    Standing s.world.board s.world := by
  obtain ⟨r, g, obj, _, hr, hobj, hx, hy⟩ := h.player_at hk
  refine ⟨rfl, obj, hobj, ?_⟩
  rw [hx, hy]
  have hmem : r ∈ s.rooms := List.mem_of_mem_head? hr
  exact h.passable_of_dug (Or.inl ⟨r, hmem, (h.sampled r hmem).center_interior⟩)

theorem move_standing {b : Board} {P : Int → Int → Prop} (hb : Shows b P)
    (hin : ∀ x y, P x y → Inner x y) {w : World} (hw : Standing b w) (dx dy : Int)
    (hd : (dx = 0 ∧ (dy = 1 ∨ dy = -1)) ∨ (dy = 0 ∧ (dx = 1 ∨ dx = -1))) :
    ∃ w1, Object.move w.player dx dy w = some w1 ∧ w1.player = w.player ∧ Standing b w1 := by
  obtain ⟨hboard, obj, hobj, hpass⟩ := hw
  subst hboard
  have hP := ((hb.passable_iff _ _).1 hpass).2
  have hI := hin _ _ hP
  have hm : InMap (obj.x + dx) (obj.y + dy) := by
    unfold Inner at hI
    unfold InMap
    omega
  obtain ⟨t, ht⟩ := hb.get_isSome hm
  have hlt : w.player < w.heap.length := by
    by_contra hc
    rw [List.getElem?_eq_none (by omega)] at hobj
    cases hobj
  unfold Object.move
  simp only [hobj, ht]
  by_cases hbl : t.blocked = false
  · have hmv : ∃ o : Object, o = { obj with x := obj.x + dx, y := obj.y + dy } := ⟨_, rfl⟩
    obtain ⟨o, ho⟩ := hmv
    rw [← ho]
    refine ⟨{ w with heap := w.heap.set w.player o },
      by simp only [hbl, beq_self_eq_true, if_true], rfl, rfl, o, ?_, ?_⟩
    · exact List.getElem?_set_self hlt
    · rw [ho]
      exact ⟨t, ht, hbl⟩
  · exact ⟨w, by simp [hbl], rfl, rfl, obj, hobj, hpass⟩

theorem handleKeys_standing {b : Board} {P : Int → Int → Prop} (hb : Shows b P)
    (hin : ∀ x y, P x y → Inner x y) {w : World} (hw : Standing b w) (key : Key) :
    ∃ w1, handleKeys key w = some w1 ∧ w1.player = w.player ∧ Standing b w1 := by
  cases key with
  | up => exact move_standing hb hin hw 0 (-1) (by omega)
  | down => exact move_standing hb hin hw 0 1 (by omega)
  | left => exact move_standing hb hin hw (-1) 0 (by omega)
  | right => exact move_standing hb hin hw 1 0 (by omega)
  | other => exact ⟨w, rfl, rfl, hw⟩

theorem play_standing {b : Board} {P : Int → Int → Prop} (hb : Shows b P)
    (hin : ∀ x y, P x y → Inner x y) (keys : List Key) :
    ∀ w, Standing b w → ∃ w1, play keys w = some w1 ∧ w1.player = w.player ∧ Standing b w1 := by
  induction keys with
  | nil => exact fun w hw => ⟨w, rfl, rfl, hw⟩
  | cons key rest ih =>
    intro w hw
    obtain ⟨w1, h1, hp1, hs1⟩ := handleKeys_standing hb hin hw key
    obtain ⟨w2, h2, hp2, hs2⟩ := ih w1 hs1
    exact ⟨w2, by simp [play, h1, h2], by rw [hp2, hp1], hs2⟩

/-- C3: on the board `makeMap` leaves, every finite sequence of key presses (each a
cardinal unit move of the player, started from the spawn) runs without an out-of-range
tile lookup, and afterwards the player is at `0 <= x < mapSizeX`, `0 <= y < mapSizeY`, on a
passable cell of the unchanged board; no passable cell lies on the outer edge of the map. -/
theorem play_in_bounds (w : World) (hp : w.player < w.heap.length) :
    ∃ s, makeMapGen w = some s ∧
      (∀ x y, Passable s.world.board x y →
        1 ≤ x ∧ x ≤ mapSizeX - 2 ∧ 1 ≤ y ∧ y ≤ mapSizeY - 2) ∧
      ∀ keys : List Key, ∃ w1 obj, play keys s.world = some w1 ∧
        w1.board = s.world.board ∧ w1.heap[w1.player]? = some obj ∧
        0 ≤ obj.x ∧ obj.x < mapSizeX ∧ 0 ≤ obj.y ∧ obj.y < mapSizeY ∧
        Passable w1.board obj.x obj.y := by
  obtain ⟨s, hs, h⟩ := makeMapGen_inv w hp
  have hin : ∀ x y, Dug s.rooms s.flips x y → Inner x y := fun x y hd => h.dug_inner hd
  refine ⟨s, hs, fun x y hpass => h.dug_inner ((h.passable_iff_dug x y).1 hpass).2, ?_⟩
  intro keys
  obtain ⟨w1, h1, _, hb1, obj, hobj, hpass⟩ :=
    play_standing h.board hin keys s.world (h.standing (by decide))
  have hm := ((h.passable_iff_dug _ _).1 hpass).1
  refine ⟨w1, obj, h1, hb1, hobj, hm.1, hm.2.1, hm.2.2.1, hm.2.2.2, ?_⟩
  rw [hb1]
  exact hpass

theorem play_in_bounds_witness :
    (initWorld (fun i => 3 * i + 2)).player < (initWorld (fun i => 3 * i + 2)).heap.length ∧
    ∃ s, makeMapGen (initWorld (fun i => 3 * i + 2)) = some s ∧
      (∀ x y, Passable s.world.board x y →
        1 ≤ x ∧ x ≤ mapSizeX - 2 ∧ 1 ≤ y ∧ y ≤ mapSizeY - 2) ∧
      ∀ keys : List Key, ∃ w1 obj, play keys s.world = some w1 ∧
        w1.board = s.world.board ∧ w1.heap[w1.player]? = some obj ∧
        0 ≤ obj.x ∧ obj.x < mapSizeX ∧ 0 ≤ obj.y ∧ obj.y < mapSizeY ∧
        Passable w1.board obj.x obj.y :=
  ⟨by decide, play_in_bounds (initWorld (fun i => 3 * i + 2)) (by decide)⟩

/-! ## When the model panics -/

theorem Intn_isSome_iff (n : Int) (g : Rng) : (g.Intn n).isSome ↔ 0 < n := by
  unfold Rng.Intn
  by_cases h : n ≤ 0
  · simp [h]
  · simp [h]
    omega

theorem Board.update_isSome_iff (b : Board) (x y : Int) (f : Tile → Tile) :
    (b.update x y f).isSome ↔ (b.get x y).isSome := by
  unfold Board.update Board.get
  cases hc : index b x with
  | none => simp
  | some col =>
    cases ht : index col y with
    | none => simp [ht]
    | some t => simp [ht]

theorem carve_isSome_iff (x y : Int) (b : Board) :
    (carve x y b).isSome ↔ (b.get x y).isSome := by
  constructor
  · intro h
    rw [← Board.update_isSome_iff b x y (fun t => { t with blocked := false })]
    unfold carve at h
    cases hu : b.update x y (fun t => { t with blocked := false }) with
    | none => simp [hu] at h
    | some b1 => rfl
  · intro h
    obtain ⟨t, ht⟩ := Option.isSome_iff_exists.1 h
    obtain ⟨b1, hb1, _⟩ := carve_of_get b x y t ht
    simp [hb1]

/-- C4: with the program's constants `makeMap` returns for every sequence of draws, so no
call of `rand.Intn` gets a non-positive argument and no write of `createRoom`,
`horizontalTunnel` or `verticalTunnel` leaves the board (the model returns `none` exactly
in those cases); every candidate has `6 <= w,h <= 9`, `0 <= x`, `x + w < mapSizeX`,
`0 <= y`, `y + h < mapSizeY`, and the board keeps the shape of the map: after the run
`board[x][y]` exists exactly when `0 <= x < mapSizeX` and `0 <= y < mapSizeY`. -/
theorem makeMap_never_panics (w : World) (hp : w.player < w.heap.length) :
    (∃ s, makeMapGen w = some s ∧ makeMap w = some s.world ∧
      (∀ x y, (s.world.board.get x y).isSome ↔
        (0 ≤ x ∧ x < mapSizeX ∧ 0 ≤ y ∧ y < mapSizeY))) ∧
    (∀ g : Rng, ∃ r g1, sampleRoom g = some (r, g1) ∧
      6 ≤ r.w ∧ r.w ≤ 9 ∧ 6 ≤ r.h ∧ r.h ≤ 9 ∧
      0 ≤ r.x ∧ r.x + r.w < mapSizeX ∧ 0 ≤ r.y ∧ r.y + r.h < mapSizeY) ∧
    (∀ (n : Int) (g : Rng), (g.Intn n).isSome ↔ 0 < n) ∧
    (∀ (x y : Int) (b : Board), (carve x y b).isSome ↔ (b.get x y).isSome) := by
  refine ⟨?_, ?_, Intn_isSome_iff, carve_isSome_iff⟩
  · obtain ⟨s, hs, h⟩ := makeMapGen_inv w hp
    refine ⟨s, hs, by simp [makeMap, hs], ?_⟩
    intro x y
    constructor
    · intro hsome
      by_contra hm
      rw [(h.board x y).1 hm] at hsome
      simp at hsome
    · intro hm
      obtain ⟨t, ht⟩ := h.board.get_isSome hm
      simp [ht]
  · intro g
    obtain ⟨r, g1, hr, hsam⟩ := sampleRoom_sampled g
    refine ⟨r, g1, hr, ?_⟩
    unfold Rect.Sampled at hsam
    omega

theorem makeMap_never_panics_witness :
    (initWorld (fun i => i * i)).player < (initWorld (fun i => i * i)).heap.length ∧
    ((∃ s, makeMapGen (initWorld (fun i => i * i)) = some s ∧
      makeMap (initWorld (fun i => i * i)) = some s.world ∧
      (∀ x y, (s.world.board.get x y).isSome ↔
        (0 ≤ x ∧ x < mapSizeX ∧ 0 ≤ y ∧ y < mapSizeY))) ∧
    (∀ g : Rng, ∃ r g1, sampleRoom g = some (r, g1) ∧
      6 ≤ r.w ∧ r.w ≤ 9 ∧ 6 ≤ r.h ∧ r.h ≤ 9 ∧
      0 ≤ r.x ∧ r.x + r.w < mapSizeX ∧ 0 ≤ r.y ∧ r.y + r.h < mapSizeY) ∧
    (∀ (n : Int) (g : Rng), (g.Intn n).isSome ↔ 0 < n) ∧
    (∀ (x y : Int) (b : Board), (carve x y b).isSome ↔ (b.get x y).isSome)) :=
  ⟨by decide, makeMap_never_panics (initWorld (fun i => i * i)) (by decide)⟩

/-- C5: for every two rooms consecutive in acceptance order, with centres `p` and `n`,
the draw `c` made for their corridor selects the L-shape that is fully passable in the
final board: the row of `p` and the column of `n` when `c = 1`, the column of `p` and the
row of `n` when `c = 0`; each segment includes both of its end cells. -/
theorem makeMap_corridor_passable (w : World) (hp : w.player < w.heap.length) :
    ∃ s, makeMapGen w = some s ∧
      ∀ (k : Nat) (p n : Rect), s.rooms[k]? = some p → s.rooms[k + 1]? = some n →
        ∃ c, s.flips[k]? = some c ∧
          ((c = 1 ∧
              (∀ x, Between p.center.1 n.center.1 x → Passable s.world.board x p.center.2) ∧
              (∀ y, Between p.center.2 n.center.2 y → Passable s.world.board n.center.1 y)) ∨
            (c = 0 ∧
              (∀ y, Between p.center.2 n.center.2 y → Passable s.world.board p.center.1 y) ∧
              (∀ x, Between p.center.1 n.center.1 x → Passable s.world.board x n.center.2))) := by
  obtain ⟨s, hs, h⟩ := makeMapGen_inv w hp
  refine ⟨s, hs, ?_⟩
  intro k p n hpk hnk
  obtain ⟨c, hc, hc01⟩ := h.flip_at hnk
  refine ⟨c, hc, ?_⟩
  rcases hc01 with hc0 | hc1
  · have hne : c ≠ 1 := by omega
    exact Or.inr ⟨hc0,
      fun y hy => h.corridor_passable hpk hnk hc _ _ (Or.inr ⟨hne, Or.inl ⟨rfl, hy⟩⟩),
      fun x hx => h.corridor_passable hpk hnk hc _ _ (Or.inr ⟨hne, Or.inr ⟨rfl, hx⟩⟩)⟩
  · exact Or.inl ⟨hc1,
      fun x hx => h.corridor_passable hpk hnk hc _ _ (Or.inl ⟨hc1, Or.inl ⟨rfl, hx⟩⟩),
      fun y hy => h.corridor_passable hpk hnk hc _ _ (Or.inl ⟨hc1, Or.inr ⟨rfl, hy⟩⟩)⟩

theorem makeMap_corridor_passable_witness :
    (initWorld (fun i => 11 * i + 4)).player < (initWorld (fun i => 11 * i + 4)).heap.length ∧
    ∃ s, makeMapGen (initWorld (fun i => 11 * i + 4)) = some s ∧
      ∀ (k : Nat) (p n : Rect), s.rooms[k]? = some p → s.rooms[k + 1]? = some n →
        ∃ c, s.flips[k]? = some c ∧
          ((c = 1 ∧
              (∀ x, Between p.center.1 n.center.1 x → Passable s.world.board x p.center.2) ∧
              (∀ y, Between p.center.2 n.center.2 y → Passable s.world.board n.center.1 y)) ∨
            (c = 0 ∧
              (∀ y, Between p.center.2 n.center.2 y → Passable s.world.board p.center.1 y) ∧
              (∀ x, Between p.center.1 n.center.1 x → Passable s.world.board x n.center.2))) :=
  ⟨by decide, makeMap_corridor_passable (initWorld (fun i => 11 * i + 4)) (by decide)⟩

/-- C6: after `makeMap` the player's position is the `center()` of the first accepted
room, which is the candidate sampled first, however many rooms were accepted later. -/
theorem makeMap_player_at_first_center (w : World) (hp : w.player < w.heap.length) :
    ∃ s r g obj, makeMapGen w = some s ∧ sampleRoom w.rng = some (r, g) ∧
      s.rooms.head? = some r ∧ s.world.player = w.player ∧
      s.world.heap[s.world.player]? = some obj ∧ (obj.x, obj.y) = r.center := by
  obtain ⟨s, hs, h⟩ := makeMapGen_inv w hp
  obtain ⟨r, g, obj, hg, hr, hobj, hx, hy⟩ := h.player_at (by decide)
  exact ⟨s, r, g, obj, hs, hg, hr, h.player, hobj, by rw [hx, hy]⟩

theorem makeMap_player_at_first_center_witness :
    (initWorld (fun i => 2 * i)).player < (initWorld (fun i => 2 * i)).heap.length ∧
    ∃ s r g obj, makeMapGen (initWorld (fun i => 2 * i)) = some s ∧
      sampleRoom (initWorld (fun i => 2 * i)).rng = some (r, g) ∧
      s.rooms.head? = some r ∧ s.world.player = (initWorld (fun i => 2 * i)).player ∧
      s.world.heap[s.world.player]? = some obj ∧ (obj.x, obj.y) = r.center :=
  ⟨by decide, makeMap_player_at_first_center (initWorld (fun i => 2 * i)) (by decide)⟩

/-- C7: in the final board every cell of the map outside all room interiors
(`x+1 .. x+w-1` by `y+1 .. y+h-1`) and outside the corridors carved between the centres of
consecutive accepted rooms is `Tile{true, true}`; a passable cell is in such an interior or
on such a corridor. -/
theorem makeMap_rest_blocked (w : World) (hp : w.player < w.heap.length) :
    ∃ s, makeMapGen w = some s ∧
      (∀ x y, 0 ≤ x → x < mapSizeX → 0 ≤ y → y < mapSizeY → ¬ Dug s.rooms s.flips x y →
        s.world.board.get x y = some { blocked := true, blocksSight := true }) ∧
      (∀ x y, Passable s.world.board x y →
        (∃ r, r ∈ s.rooms ∧ r.x + 1 ≤ x ∧ x ≤ r.x + r.w - 1 ∧ r.y + 1 ≤ y ∧ y ≤ r.y + r.h - 1) ∨
        (∃ k p n c, s.rooms[k]? = some p ∧ s.rooms[k + 1]? = some n ∧ s.flips[k]? = some c ∧
          Corridor c p.center n.center x y)) := by
  obtain ⟨s, hs, h⟩ := makeMapGen_inv w hp
  refine ⟨s, hs, ?_, ?_⟩
  · intro x y h1 h2 h3 h4 hd
    exact (h.board x y).2.2 ⟨h1, h2, h3, h4⟩ hd
  · intro x y hpass
    exact ((h.passable_iff_dug x y).1 hpass).2

theorem makeMap_rest_blocked_witness :
    (initWorld (fun i => i + 1)).player < (initWorld (fun i => i + 1)).heap.length ∧
    ∃ s, makeMapGen (initWorld (fun i => i + 1)) = some s ∧
      (∀ x y, 0 ≤ x → x < mapSizeX → 0 ≤ y → y < mapSizeY → ¬ Dug s.rooms s.flips x y →
        s.world.board.get x y = some { blocked := true, blocksSight := true }) ∧
      (∀ x y, Passable s.world.board x y →
        (∃ r, r ∈ s.rooms ∧ r.x + 1 ≤ x ∧ x ≤ r.x + r.w - 1 ∧ r.y + 1 ≤ y ∧ y ≤ r.y + r.h - 1) ∨
        (∃ k p n c, s.rooms[k]? = some p ∧ s.rooms[k + 1]? = some n ∧ s.flips[k]? = some c ∧
          Corridor c p.center n.center x y)) :=
  ⟨by decide, makeMap_rest_blocked (initWorld (fun i => i + 1)) (by decide)⟩

/-! ## The movement rule -/

theorem move_blocked (w : World) (p : Nat) (obj : Object) (dx dy : Int) (t : Tile)
    (hobj : w.heap[p]? = some obj) (ht : w.board.get (obj.x + dx) (obj.y + dy) = some t)
    (hb : t.blocked = true) : Object.move p dx dy w = some w := by
  unfold Object.move
  simp [hobj, ht, hb]

theorem move_free (w : World) (p : Nat) (obj : Object) (dx dy : Int) (t : Tile)
    (hobj : w.heap[p]? = some obj) (ht : w.board.get (obj.x + dx) (obj.y + dy) = some t)
    (hb : t.blocked = false) :
    Object.move p dx dy w =
      some { w with heap := w.heap.set p { obj with x := obj.x + dx, y := obj.y + dy } } := by
  unfold Object.move
  simp [hobj, ht, hb]

/-- C8: when the tile at `(obj.x+dx, obj.y+dy)` is in range and blocked, `move(dx, dy)`
returns without a panic and leaves the whole state (the object, every other object, the
board) as it was; so does any number of repetitions of the same call. -/
theorem move_blocked_is_noop (w : World) (p : Nat) (obj : Object) (dx dy : Int) (t : Tile)
    (hobj : w.heap[p]? = some obj) (ht : w.board.get (obj.x + dx) (obj.y + dy) = some t)
    (hb : t.blocked = true) :
    Object.move p dx dy w = some w ∧ ∀ n : Nat, moveTimes p dx dy n w = some w := by
  have h1 := move_blocked w p obj dx dy t hobj ht hb
  refine ⟨h1, ?_⟩
  intro n
  induction n with
  | zero => rfl
  | succ n ih => simp [moveTimes, h1, ih]

theorem move_blocked_is_noop_witness :
    smallWorld.heap[0]? = some { layer := 1, x := 0, y := 0, char := "@", color := "white" } ∧
    smallWorld.board.get (0 + 0) (0 + 1) = some { blocked := true, blocksSight := true } ∧
    Object.move 0 0 1 smallWorld = some smallWorld ∧
    ∀ n : Nat, moveTimes 0 0 1 n smallWorld = some smallWorld :=
  ⟨rfl, rfl,
    move_blocked_is_noop smallWorld 0
      { layer := 1, x := 0, y := 0, char := "@", color := "white" } 0 1
      { blocked := true, blocksSight := true } rfl rfl rfl⟩

/-- C9: when the tile at `(obj.x+dx, obj.y+dy)` is in range and not blocked, `move(dx, dy)`
puts the object at exactly `(x+dx, y+dy)` and changes nothing else: its `layer`, `char` and
`color`, every other object, the board and the other globals stay as they were.  Only the
`blocked` flag of the target tile is consulted: the same holds in every world that has this
object at `p` and an unblocked tile at the target, whatever its `blocksSight` flag, its other
tiles and its other objects. -/
theorem move_free_changes_position_only (w : World) (p : Nat) (obj : Object) (dx dy : Int)
    (t : Tile) (hobj : w.heap[p]? = some obj)
    (ht : w.board.get (obj.x + dx) (obj.y + dy) = some t) (hb : t.blocked = false) :
    ∃ w1, Object.move p dx dy w = some w1 ∧
      w1.heap[p]? = some { layer := obj.layer, x := obj.x + dx, y := obj.y + dy,
                           char := obj.char, color := obj.color } ∧
      (∀ q : Nat, q ≠ p → w1.heap[q]? = w.heap[q]?) ∧
      w1.heap.length = w.heap.length ∧
      w1.board = w.board ∧ w1.player = w.player ∧ w1.objects = w.objects ∧ w1.rng = w.rng ∧
      (∀ (w2 : World) (t2 : Tile), w2.heap[p]? = some obj →
        w2.board.get (obj.x + dx) (obj.y + dy) = some t2 → t2.blocked = false →
        ∃ w3, Object.move p dx dy w2 = some w3 ∧ w3.heap[p]? = w1.heap[p]?) := by
  have hlt : ∀ w2 : World, w2.heap[p]? = some obj → p < w2.heap.length := by
    intro w2 h2
    by_contra hc
    rw [List.getElem?_eq_none (by omega)] at h2
    cases h2
  refine ⟨_, move_free w p obj dx dy t hobj ht hb, ?_, ?_, ?_, rfl, rfl, rfl, rfl, ?_⟩
  · exact List.getElem?_set_self (hlt w hobj)
  · intro q hq
    exact List.getElem?_set_ne (Ne.symm hq)
  · simp
  · intro w2 t2 hobj2 ht2 hb2
    refine ⟨_, move_free w2 p obj dx dy t2 hobj2 ht2 hb2, ?_⟩
    simp only
    rw [List.getElem?_set_self (hlt w hobj), List.getElem?_set_self (hlt w2 hobj2)]

theorem move_free_changes_position_only_witness :
    smallWorld.heap[0]? = some { layer := 1, x := 0, y := 0, char := "@", color := "white" } ∧
    smallWorld.board.get (0 + 1) (0 + 0) = some { blocked := false, blocksSight := false } ∧
    ∃ w1, Object.move 0 1 0 smallWorld = some w1 ∧
      w1.heap[0]? = some { layer := 1, x := 0 + 1, y := 0 + 0, char := "@", color := "white" } ∧
      w1.board = smallWorld.board :=
  ⟨rfl, rfl,
    let ⟨w1, h1, h2, _, _, h3, _⟩ :=
      move_free_changes_position_only smallWorld 0
        { layer := 1, x := 0, y := 0, char := "@", color := "white" } 1 0
        { blocked := false, blocksSight := false } rfl rfl rfl
    ⟨w1, h1, h2, h3⟩⟩

/-- C10: when the cells `(x, y)` and `(x+1, y)` are both in range and passable, `move(1, 0)`
followed by `move(-1, 0)` brings the object back to `(x, y)`; the board is the same after
each call, and the final state equals the initial one. -/
theorem move_right_then_left (w : World) (p : Nat) (obj : Object)
    (hobj : w.heap[p]? = some obj) (h0 : Passable w.board obj.x obj.y)
    (h1 : Passable w.board (obj.x + 1) obj.y) :
    ∃ w1 w2 obj1, Object.move p 1 0 w = some w1 ∧ w1.heap[p]? = some obj1 ∧
      obj1.x = obj.x + 1 ∧ obj1.y = obj.y ∧ w1.board = w.board ∧
      Object.move p (-1) 0 w1 = some w2 ∧ w2.heap[p]? = some obj ∧ w2.board = w.board ∧
      w2 = w := by
  obtain ⟨t0, ht0, hb0⟩ := h0
  obtain ⟨t1, ht1, hb1⟩ := h1
  have hlt : p < w.heap.length := by
    by_contra hc
    rw [List.getElem?_eq_none (by omega)] at hobj
    cases hobj
  have m1 := move_free w p obj 1 0 t1 hobj (by simpa using ht1) hb1
  have hobj1 : (w.heap.set p { obj with x := obj.x + 1, y := obj.y + 0 })[p]? =
      some { obj with x := obj.x + 1, y := obj.y + 0 } := List.getElem?_set_self hlt
  have m2 := move_free { w with heap := w.heap.set p { obj with x := obj.x + 1, y := obj.y + 0 } }
    p { obj with x := obj.x + 1, y := obj.y + 0 } (-1) 0 t0 hobj1 (by simpa using ht0) hb0
  have hback : w.heap.set p obj = w.heap := by
    apply List.ext_getElem?
    intro i
    by_cases hi : i = p
    · subst hi
      rw [List.getElem?_set_self hlt, hobj]
    · rw [List.getElem?_set_ne (Ne.symm hi)]
  have hw2 : ({ w with heap := ((w.heap.set p { obj with x := obj.x + 1, y := obj.y + 0 }).set p
      { obj with x := obj.x + 1 + -1, y := obj.y + 0 + 0 }) } : World) = w := by
    have e : ({ obj with x := obj.x + 1 + -1, y := obj.y + 0 + 0 } : Object) = obj := by
      cases obj
      simp
    rw [e, List.set_set, hback]
  refine ⟨_, _, _, m1, hobj1, rfl, by simp, rfl, m2, ?_, ?_, ?_⟩
  · rw [hw2]; exact hobj
  · rfl
  · exact hw2

theorem move_right_then_left_witness :
    smallWorld.heap[0]? = some { layer := 1, x := 0, y := 0, char := "@", color := "white" } ∧
    ∃ w1 w2 obj1, Object.move 0 1 0 smallWorld = some w1 ∧ w1.heap[0]? = some obj1 ∧
      obj1.x = 0 + 1 ∧ obj1.y = 0 ∧ w1.board = smallWorld.board ∧
      Object.move 0 (-1) 0 w1 = some w2 ∧
      w2.heap[0]? = some { layer := 1, x := 0, y := 0, char := "@", color := "white" } ∧
      w2.board = smallWorld.board ∧ w2 = smallWorld :=
  ⟨rfl,
    move_right_then_left smallWorld 0
      { layer := 1, x := 0, y := 0, char := "@", color := "white" } rfl
      ⟨{ blocked := false, blocksSight := false }, rfl, rfl⟩
      ⟨{ blocked := false, blocksSight := false }, rfl, rfl⟩⟩

/-! ## Carving on an arbitrary board -/

theorem CarvedIn.none (b : Board) : CarvedIn (fun _ _ => False) b b :=
  fun _ _ => ⟨fun h => h.elim, fun _ => rfl⟩

theorem CarvedIn.congr_cells {P Q : Int → Int → Prop} {b b1 : Board} (h : CarvedIn P b b1)
    (hPQ : ∀ x y, P x y ↔ Q x y) : CarvedIn Q b b1 :=
  fun x y => ⟨fun hq => (h x y).1 ((hPQ x y).2 hq),
    fun hq => (h x y).2 (fun hp => hq ((hPQ x y).1 hp))⟩

theorem CarvedIn.then {P Q : Int → Int → Prop} {b b1 b2 : Board} (h1 : CarvedIn P b b1)
    (h2 : CarvedIn Q b1 b2) : CarvedIn (fun x y => P x y ∨ Q x y) b b2 := by
  intro x y
  by_cases hq : Q x y
  · exact ⟨fun _ => (h2 x y).1 hq, fun hn => absurd (Or.inr hq) hn⟩
  · refine ⟨fun hpq => ?_, fun hn => ?_⟩
    · rw [(h2 x y).2 hq]
      exact (h1 x y).1 (hpq.resolve_right hq)
    · rw [(h2 x y).2 hq]
      exact (h1 x y).2 (fun hp => hn (Or.inl hp))

theorem carve_carvedIn {x y : Int} {b b1 : Board} (h : carve x y b = some b1) :
    (b.get x y).isSome ∧ CarvedIn (fun x0 y0 => x0 = x ∧ y0 = y) b b1 := by
  have hs : (b.get x y).isSome := (carve_isSome_iff x y b).1 (by simp [h])
  obtain ⟨t, ht⟩ := Option.isSome_iff_exists.1 hs
  obtain ⟨b2, hb2, hg⟩ := carve_of_get b x y t ht
  rw [h] at hb2
  cases hb2
  refine ⟨hs, fun x0 y0 => ⟨fun hp => ?_, fun hn => ?_⟩⟩
  · rw [hg x0 y0]; simp [hp]
  · rw [hg x0 y0]; simp [hn]

theorem forLoop_carvedIn (body : Int → Board → Option Board) (Q : Int → Int → Int → Prop)
    (n : Nat) : ∀ (lo : Int) (b b1 : Board),
    (∀ i b2 b3, lo ≤ i → i < lo + n → body i b2 = some b3 → CarvedIn (Q i) b2 b3) →
    forLoop body n lo b = some b1 →
    CarvedIn (fun x y => ∃ i, lo ≤ i ∧ i < lo + n ∧ Q i x y) b b1 := by
  induction n with
  | zero =>
    intro lo b b1 _ h
    simp only [forLoop, Option.some.injEq] at h
    subst h
    refine (CarvedIn.none b).congr_cells (fun x y => ⟨fun hf => hf.elim, ?_⟩)
    rintro ⟨i, h1, h2, _⟩
    simp at h2
    omega
  | succ n ih =>
    intro lo b b1 hbody h
    simp only [forLoop] at h
    cases hb : body lo b with
    | none => simp [hb] at h
    | some b2 =>
      simp only [hb, Option.some_bind] at h
      have c1 := hbody lo b b2 (le_refl _) (by push_cast; omega) hb
      have c2 := ih (lo + 1) b2 b1
        (fun i b3 b4 h1 h2 h3 => hbody i b3 b4 (by omega) (by push_cast; omega) h3) h
      refine (c1.then c2).congr_cells (fun x y => ?_)
      constructor
      · rintro (hq | ⟨i, h1, h2, h3⟩)
        · exact ⟨lo, le_refl _, by push_cast; omega, hq⟩
        · exact ⟨i, by omega, by push_cast; omega, h3⟩
      · rintro ⟨i, h1, h2, h3⟩
        by_cases hi : i = lo
        · subst hi
          exact Or.inl h3
        · exact Or.inr ⟨i, by omega, by push_cast at h2; omega, h3⟩

theorem forRange_carvedIn (body : Int → Board → Option Board) (Q : Int → Int → Int → Prop)
    (lo hi : Int) (b b1 : Board)
    (hbody : ∀ i b2 b3, lo ≤ i → i < hi → body i b2 = some b3 → CarvedIn (Q i) b2 b3)
    (h : forRange lo hi body b = some b1) :
    CarvedIn (fun x y => ∃ i, lo ≤ i ∧ i < hi ∧ Q i x y) b b1 := by
  have c := forLoop_carvedIn body Q (hi - lo).toNat lo b b1
    (fun i b2 b3 h1 h2 h3 => hbody i b2 b3 h1 (by omega) h3) h
  refine c.congr_cells (fun x y => ?_)
  constructor
  · rintro ⟨i, h1, h2, h3⟩
    exact ⟨i, h1, by omega, h3⟩
  · rintro ⟨i, h1, h2, h3⟩
    exact ⟨i, h1, by omega, h3⟩

theorem createRoom_carvedIn {room : Rect} {b b1 : Board} (h : createRoom room b = some b1) :
    CarvedIn room.interior b b1 := by
  unfold createRoom at h
  have c := forRange_carvedIn _
    (fun i x y => x = i ∧ room.y + 1 ≤ y ∧ y < room.y + room.h) _ _ b b1
    (fun i b2 b3 _ _ h3 =>
      (forRange_carvedIn _ (fun j x y => x = i ∧ y = j) _ _ b2 b3
        (fun j b4 b5 _ _ h6 => (carve_carvedIn h6).2) h3).congr_cells
        (fun x y => by
          constructor
          · rintro ⟨j, h1, h2, h3, h4⟩
            exact ⟨h3, by omega, by omega⟩
          · rintro ⟨h1, h2, h3⟩
            exact ⟨y, h2, h3, h1, rfl⟩)) h
  refine c.congr_cells (fun x y => ?_)
  unfold Rect.interior
  constructor
  · rintro ⟨i, h1, h2, h3, h4, h5⟩
    exact ⟨by omega, by omega, h4, by omega⟩
  · rintro ⟨h1, h2, h3, h4⟩
    exact ⟨x, h1, by omega, rfl, h3, by omega⟩

theorem horizontalTunnel_carvedIn {x1 x2 y : Int} {b b1 : Board}
    (h : horizontalTunnel x1 x2 y b = some b1) :
    CarvedIn (fun x0 y0 => y0 = y ∧ Between x1 x2 x0) b b1 := by
  unfold horizontalTunnel at h
  have c := forRange_carvedIn _ (fun i x0 y0 => x0 = i ∧ y0 = y) _ _ b b1
    (fun i b2 b3 _ _ h3 => (carve_carvedIn h3).2) h
  refine c.congr_cells (fun x0 y0 => ?_)
  constructor
  · rintro ⟨i, h1, h2, h3, h4⟩
    subst h3
    exact ⟨h4, (min_max_between x1 x2 x0).1 ⟨h1, h2⟩⟩
  · rintro ⟨h1, h2⟩
    have := (min_max_between x1 x2 x0).2 h2
    exact ⟨x0, this.1, this.2, rfl, h1⟩

theorem verticalTunnel_carvedIn {y1 y2 x : Int} {b b1 : Board}
    (h : verticalTunnel y1 y2 x b = some b1) :
    CarvedIn (fun x0 y0 => x0 = x ∧ Between y1 y2 y0) b b1 := by
  unfold verticalTunnel at h
  have c := forRange_carvedIn _ (fun i x0 y0 => x0 = x ∧ y0 = i) _ _ b b1
    (fun i b2 b3 _ _ h3 => (carve_carvedIn h3).2) h
  refine c.congr_cells (fun x0 y0 => ?_)
  constructor
  · rintro ⟨i, h1, h2, h3, h4⟩
    subst h4
    exact ⟨h3, (min_max_between y1 y2 y0).1 ⟨h1, h2⟩⟩
  · rintro ⟨h1, h2⟩
    have := (min_max_between y1 y2 y0).2 h2
    exact ⟨y0, this.1, this.2, h1, rfl⟩

theorem CarvedIn.passable {P : Int → Int → Prop} {b b1 : Board} (h : CarvedIn P b b1)
    {x y : Int} (hp : Passable b x y) : Passable b1 x y := by
  classical
  by_cases hP : P x y
  · exact ⟨_, (h x y).1 hP, rfl⟩
  · obtain ⟨t, ht, hb⟩ := hp
    exact ⟨t, by rw [(h x y).2 hP]; exact ht, hb⟩

theorem CarvedIn.keeps_consistent {P : Int → Int → Prop} {b b1 : Board} (h : CarvedIn P b b1)
    (hc : Consistent b) : Consistent b1 := by
  classical
  intro x y t ht
  by_cases hP : P x y
  · rw [(h x y).1 hP] at ht
    cases ht
    rfl
  · rw [(h x y).2 hP] at ht
    exact hc x y t ht

theorem forLoop_carve_isSome (cx cy : Int → Int) (n : Nat) : ∀ (lo : Int) (b : Board),
    (∀ i, lo ≤ i → i < lo + n → (b.get (cx i) (cy i)).isSome) →
    (forLoop (fun i b1 => carve (cx i) (cy i) b1) n lo b).isSome := by
  induction n with
  | zero => intro lo b _; rfl
  | succ n ih =>
    intro lo b hin
    obtain ⟨t, ht⟩ := Option.isSome_iff_exists.1 (hin lo (le_refl _) (by push_cast; omega))
    obtain ⟨b1, hb1, hg⟩ := carve_of_get b (cx lo) (cy lo) t ht
    simp only [forLoop, hb1, Option.some_bind]
    apply ih
    intro i h1 h2
    rw [hg]
    split
    · rfl
    · exact hin i (by omega) (by push_cast; omega)

/-! ## Room interiors and borders in the final board -/

theorem wideRoomDraws_first :
    sampleRoom (initWorld wideRoomDraws).rng =
      some ({ x := 0, y := 0, w := 9, h := 6 }, { draws := wideRoomDraws, pos := 4 }) := by
  rfl

theorem Rect.Sampled.center_ge {r : Rect} (h : r.Sampled) :
    r.x + 3 ≤ r.center.1 ∧ r.y + 3 ≤ r.center.2 := by
  rw [h.center_eq]
  unfold Rect.Sampled at h
  simp only
  omega

/-- C11 (as amended): for every accepted room `(x, y, w, h)` every cell `(cx, cy)` with
`x+1 <= cx <= x+w-1` and `y+1 <= cy <= y+h-1` is passable in the final board; the range
of `cy` is bounded by `h`, as in `createRoom`. -/
theorem makeMap_interior_passable (w : World) (hp : w.player < w.heap.length) :
    ∃ s, makeMapGen w = some s ∧
      ∀ (r : Rect) (cx cy : Int), r ∈ s.rooms →
        r.x + 1 ≤ cx → cx ≤ r.x + r.w - 1 → r.y + 1 ≤ cy → cy ≤ r.y + r.h - 1 →
        Passable s.world.board cx cy := by
  obtain ⟨s, hs, h⟩ := makeMapGen_inv w hp
  refine ⟨s, hs, ?_⟩
  intro r cx cy hr h1 h2 h3 h4
  exact h.passable_of_dug (Or.inl ⟨r, hr, h1, h2, h3, h4⟩)

theorem makeMap_interior_passable_witness :
    (initWorld wideRoomDraws).player < (initWorld wideRoomDraws).heap.length ∧
    ∃ s, makeMapGen (initWorld wideRoomDraws) = some s ∧
      ∀ (r : Rect) (cx cy : Int), r ∈ s.rooms →
        r.x + 1 ≤ cx → cx ≤ r.x + r.w - 1 → r.y + 1 ≤ cy → cy ≤ r.y + r.h - 1 →
        Passable s.world.board cx cy :=
  ⟨by decide, makeMap_interior_passable (initWorld wideRoomDraws) (by decide)⟩

/-- C11 as stated fails: with the draws `3, 0, 0, 0, ...` the room `Rect{0, 0, 9, 6}` is
accepted, the cell `(1, 7)` has `x+1 <= 1 <= x+w-1` and `y+1 <= 7 <= y+w-1`, and it is not
passable in the final board. -/
theorem makeMap_interior_by_w_fails :
    ∃ s r, makeMapGen (initWorld wideRoomDraws) = some s ∧ r ∈ s.rooms ∧
      r = { x := 0, y := 0, w := 9, h := 6 } ∧
      r.x + 1 ≤ 1 ∧ 1 ≤ r.x + r.w - 1 ∧ r.y + 1 ≤ 7 ∧ 7 ≤ r.y + r.w - 1 ∧
      ¬ Passable s.world.board 1 7 := by
  obtain ⟨s, hs, h⟩ := makeMapGen_inv (initWorld wideRoomDraws) (by decide)
  obtain ⟨r, g, obj, hg, hr, _, _, _⟩ := h.player_at (by decide)
  rw [wideRoomDraws_first] at hg
  simp only [Option.some.injEq, Prod.mk.injEq] at hg
  have hr0 : r = { x := 0, y := 0, w := 9, h := 6 } := hg.1.symm
  have hmem : r ∈ s.rooms := List.mem_of_mem_head? hr
  refine ⟨s, r, hs, hmem, hr0, by rw [hr0]; decide, by rw [hr0]; decide, by rw [hr0]; decide,
    by rw [hr0]; decide, ?_⟩
  intro hpass
  have hd := ((h.passable_iff_dug 1 7).1 hpass).2
  rcases hd with ⟨r1, hr1, hi⟩ | ⟨k, p, n, c, h1, h2, h3, h4⟩
  · have hsam1 := h.sampled r1 hr1
    have hs1 := hsam1
    unfold Rect.Sampled at hs1
    unfold Rect.interior at hi
    obtain ⟨tl, htl⟩ : ∃ tl, s.rooms = r :: tl := by
      cases hl : s.rooms with
      | nil => rw [hl] at hr; cases hr
      | cons a l =>
        rw [hl] at hr
        simp only [List.head?_cons, Option.some.injEq] at hr
        exact ⟨l, by rw [hr]⟩
    rw [htl] at hr1
    rcases List.mem_cons.1 hr1 with he | hin
    · rw [he, hr0] at hi
      simp only at hi
      omega
    · have hap := h.apart
      rw [htl] at hap
      have := (List.pairwise_cons.1 hap).1 r1 hin
      have hx := (h.sampled r hmem).not_meet hsam1 this.1
      rw [hr0] at hx
      simp only at hx
      omega
  · have hp1 := (h.sampled p (List.getElem?_mem h1)).center_ge
    have hn1 := (h.sampled n (List.getElem?_mem h2)).center_ge
    have hp2 := h.sampled p (List.getElem?_mem h1)
    have hn2 := h.sampled n (List.getElem?_mem h2)
    unfold Rect.Sampled at hp2 hn2
    unfold Corridor RowFirst ColumnFirst Between at h4
    omega

theorem Rect.border_not_interior {r : Rect} {x y : Int} (h : r.border x y) :
    ¬ r.interior x y := by
  unfold Rect.border at h
  unfold Rect.interior
  omega

theorem Inv.apart_of_ne {w0 : World} {k : Nat} {s : MapGen} (h : Inv w0 k s) {a b : Rect}
    (ha : a ∈ s.rooms) (hb : b ∈ s.rooms) (hab : a ≠ b) :
    a.intersect b = false ∧ b.intersect a = false :=
  List.Pairwise.forall (fun _ _ hxy => ⟨hxy.2, hxy.1⟩) h.apart ha hb hab

/-- C12: for every accepted room, no accepted room's interior covers a cell of its one-cell
border (the perimeter of `[x, x+w]` by `[y, y+h]`), and such a cell is `Tile{true, true}` in
the final board unless it lies on a corridor carved between the centres of two consecutive
accepted rooms; `createRoom` leaves every border cell of its room as it was. -/
theorem makeMap_border_blocked (w : World) (hp : w.player < w.heap.length) :
    (∃ s, makeMapGen w = some s ∧
      ∀ (r : Rect) (x y : Int), r ∈ s.rooms → r.border x y →
        (∀ r2, r2 ∈ s.rooms → ¬ r2.interior x y) ∧
        ((¬ ∃ k p n c, s.rooms[k]? = some p ∧ s.rooms[k + 1]? = some n ∧
            s.flips[k]? = some c ∧ Corridor c p.center n.center x y) →
          s.world.board.get x y = some { blocked := true, blocksSight := true })) ∧
    (∀ (room : Rect) (b b1 : Board) (x y : Int), createRoom room b = some b1 →
      room.border x y → b1.get x y = b.get x y) := by
  constructor
  · obtain ⟨s, hs, h⟩ := makeMapGen_inv w hp
    refine ⟨s, hs, ?_⟩
    intro r x y hr hbd
    have hcover : ∀ r2, r2 ∈ s.rooms → ¬ r2.interior x y := by
      intro r2 hr2 hi
      by_cases he : r2 = r
      · subst he
        exact Rect.border_not_interior hbd hi
      · have hx := (h.sampled r hr).not_meet (h.sampled r2 hr2)
          (h.apart_of_ne hr hr2 (Ne.symm he)).1
        have s1 := h.sampled r hr
        have s2 := h.sampled r2 hr2
        unfold Rect.Sampled at s1 s2
        unfold Rect.border at hbd
        unfold Rect.interior at hi
        omega
    refine ⟨hcover, ?_⟩
    intro hno
    have hm : InMap x y := by
      have s1 := h.sampled r hr
      unfold Rect.Sampled at s1
      unfold Rect.border at hbd
      unfold InMap
      omega
    refine (h.board x y).2.2 hm ?_
    rintro (⟨r2, hr2, hi⟩ | hc)
    · exact hcover r2 hr2 hi
    · exact hno hc
  · intro room b b1 x y hc hbd
    exact ((createRoom_carvedIn hc) x y).2 (Rect.border_not_interior hbd)

theorem makeMap_border_blocked_witness :
    (initWorld wideRoomDraws).player < (initWorld wideRoomDraws).heap.length ∧
    ((∃ s, makeMapGen (initWorld wideRoomDraws) = some s ∧
      ∀ (r : Rect) (x y : Int), r ∈ s.rooms → r.border x y →
        (∀ r2, r2 ∈ s.rooms → ¬ r2.interior x y) ∧
        ((¬ ∃ k p n c, s.rooms[k]? = some p ∧ s.rooms[k + 1]? = some n ∧
            s.flips[k]? = some c ∧ Corridor c p.center n.center x y) →
          s.world.board.get x y = some { blocked := true, blocksSight := true })) ∧
    (∀ (room : Rect) (b b1 : Board) (x y : Int), createRoom room b = some b1 →
      room.border x y → b1.get x y = b.get x y)) :=
  ⟨by decide, makeMap_border_blocked (initWorld wideRoomDraws) (by decide)⟩

/-! ## The number of rooms -/

theorem setPlayer_rooms (x y : Int) (w : World) (rs : List Rect) (n : Int) (fl : List Int)
    (s2 : MapGen)
    (h : (setPlayer x y w).map
      (fun w1 => ({ world := w1, rooms := rs, numRooms := n, flips := fl } : MapGen)) = some s2) :
    s2.rooms = rs := by
  cases hw : setPlayer x y w with
  | none => simp [hw] at h
  | some w1 =>
    simp only [hw, Option.map_some', Option.some.injEq] at h
    subst h
    rfl

theorem connect_rooms (x y : Int) (s s2 : MapGen) (h : connect x y s = some s2) :
    s2.rooms = s.rooms := by
  unfold connect at h
  cases hi : index s.rooms (s.numRooms - 1) with
  | none => simp [hi] at h
  | some prev =>
    simp only [hi] at h
    cases hc : s.world.rng.Intn (1 + 1) with
    | none =>
      rw [hc] at h
      simp at h
    | some cg =>
      obtain ⟨c, g⟩ := cg
      rw [hc] at h
      simp only at h
      split at h
      · cases h
      · simp only [Option.some.injEq] at h
        subst h
        rfl

theorem accept_rooms (newRoom : Rect) (s s1 : MapGen) (h : accept newRoom s = some s1) :
    s1.rooms = s.rooms ++ [newRoom] := by
  unfold accept at h
  cases hb : createRoom newRoom s.world.board with
  | none => simp [hb] at h
  | some b =>
    simp only [hb] at h
    split at h
    · cases h
    · rename_i s2 hs2
      simp only [Option.some.injEq] at h
      subst h
      simp only
      split at hs2
      · rw [setPlayer_rooms _ _ _ _ _ _ _ hs2]
      · rw [connect_rooms _ _ _ _ hs2]

theorem attempt_rooms (s s1 : MapGen) (h : attempt s = some s1) :
    s1.rooms = s.rooms ∨ ∃ r, s1.rooms = s.rooms ++ [r] := by
  unfold attempt at h
  cases hg : sampleRoom s.world.rng with
  | none => simp [hg] at h
  | some rg =>
    obtain ⟨newRoom, g⟩ := rg
    simp only [hg] at h
    split at h
    · have := accept_rooms _ _ _ h
      exact Or.inr ⟨newRoom, this⟩
    · simp only [Option.some.injEq] at h
      subst h
      exact Or.inl rfl

/-- C16: `makeMap` accepts at least one room and at most `maxRooms` (30): the candidate
sampled first is accepted and heads the list, `numRooms` counts the list, and one attempt
leaves the list as it was or appends one room to it. -/
theorem makeMap_room_count (w : World) (hp : w.player < w.heap.length) :
    (∃ s r g, makeMapGen w = some s ∧ 1 ≤ s.rooms.length ∧
      (s.rooms.length : Int) ≤ maxRooms ∧ s.numRooms = s.rooms.length ∧
      sampleRoom w.rng = some (r, g) ∧ s.rooms.head? = some r) ∧
    (∀ s s1 : MapGen, attempt s = some s1 →
      s1.rooms = s.rooms ∨ ∃ r, s1.rooms = s.rooms ++ [r]) := by
  refine ⟨?_, attempt_rooms⟩
  obtain ⟨s, hs, h⟩ := makeMapGen_inv w hp
  obtain ⟨r, g, obj, hg, hr, _, _, _⟩ := h.player_at (by decide)
  have h1 : 1 ≤ s.rooms.length := List.length_pos.2 (h.nonempty (by decide))
  have h2 : (s.rooms.length : Int) ≤ maxRooms := by
    have := h.count
    unfold maxRooms
    omega
  exact ⟨s, r, g, hs, h1, h2, h.num, hg, hr⟩

theorem makeMap_room_count_witness :
    (initWorld wideRoomDraws).player < (initWorld wideRoomDraws).heap.length ∧
    ((∃ s r g, makeMapGen (initWorld wideRoomDraws) = some s ∧ 1 ≤ s.rooms.length ∧
      (s.rooms.length : Int) ≤ maxRooms ∧ s.numRooms = s.rooms.length ∧
      sampleRoom (initWorld wideRoomDraws).rng = some (r, g) ∧ s.rooms.head? = some r) ∧
    (∀ s s1 : MapGen, attempt s = some s1 →
      s1.rooms = s.rooms ∨ ∃ r, s1.rooms = s.rooms ++ [r])) :=
  ⟨by decide, makeMap_room_count (initWorld wideRoomDraws) (by decide)⟩

/-! ## Tiles stay carved -/

theorem move_board {p : Nat} {dx dy : Int} {w w1 : World} (h : Object.move p dx dy w = some w1) :
    w1.board = w.board := by
  unfold Object.move at h
  split at h
  · cases h
  · split at h
    · cases h
    · split at h
      · simp only [Option.some.injEq] at h
        subst h
        rfl
      · simp only [Option.some.injEq] at h
        subst h
        rfl

theorem handleKeys_board {key : Key} {w w1 : World} (h : handleKeys key w = some w1) :
    w1.board = w.board := by
  cases key with
  | up => exact move_board h
  | down => exact move_board h
  | left => exact move_board h
  | right => exact move_board h
  | other =>
    simp only [handleKeys, Option.some.injEq] at h
    subst h
    rfl

theorem play_board (keys : List Key) : ∀ {w w1 : World}, play keys w = some w1 →
    w1.board = w.board := by
  induction keys with
  | nil =>
    intro w w1 h
    simp only [play, Option.some.injEq] at h
    subst h
    rfl
  | cons key rest ih =>
    intro w w1 h
    simp only [play] at h
    cases hk : handleKeys key w with
    | none => simp [hk] at h
    | some w2 =>
      simp only [hk, Option.some_bind] at h
      rw [ih h, handleKeys_board hk]

theorem Shows.consistent {b : Board} {P : Int → Int → Prop} (h : Shows b P) : Consistent b := by
  classical
  intro x y t ht
  obtain ⟨h1, h2, h3⟩ := h x y
  by_cases hm : InMap x y
  · by_cases hp : P x y
    · rw [h2 hm hp] at ht
      cases ht
      rfl
    · rw [h3 hm hp] at ht
      cases ht
      rfl
  · rw [h1 hm] at ht
    cases ht

/-- C17: the board `makeMap` allocates has every tile `blocked` and `blocksSight`; each of
`createRoom`, `horizontalTunnel` and `verticalTunnel` leaves passable every tile that was
passable and keeps `blocked == blocksSight` on every tile; `move` leaves the board as it
was; so after `makeMap`, and after any key presses that follow, every tile of the board has
`blocked == blocksSight`. -/
theorem tiles_never_reblocked (w : World) (hp : w.player < w.heap.length) :
    (∀ x y t, newMap.get x y = some t → t.blocked = true ∧ t.blocksSight = true) ∧
    (∀ (room : Rect) (b b1 : Board), createRoom room b = some b1 →
      (∀ x y, Passable b x y → Passable b1 x y) ∧ (Consistent b → Consistent b1)) ∧
    (∀ (x1 x2 y : Int) (b b1 : Board), horizontalTunnel x1 x2 y b = some b1 →
      (∀ x0 y0, Passable b x0 y0 → Passable b1 x0 y0) ∧ (Consistent b → Consistent b1)) ∧
    (∀ (y1 y2 x : Int) (b b1 : Board), verticalTunnel y1 y2 x b = some b1 →
      (∀ x0 y0, Passable b x0 y0 → Passable b1 x0 y0) ∧ (Consistent b → Consistent b1)) ∧
    (∀ (p : Nat) (dx dy : Int) (w0 w1 : World), Object.move p dx dy w0 = some w1 →
      w1.board = w0.board) ∧
    (∃ s, makeMapGen w = some s ∧ Consistent s.world.board ∧
      ∀ (keys : List Key) (w1 : World), play keys s.world = some w1 →
        w1.board = s.world.board ∧ Consistent w1.board) := by
  refine ⟨?_, ?_, ?_, ?_, ?_, ?_⟩
  · intro x y t ht
    obtain ⟨h1, _, h3⟩ := newMap_shows x y
    by_cases hm : InMap x y
    · rw [h3 hm (fun hf => hf)] at ht
      cases ht
      exact ⟨rfl, rfl⟩
    · rw [h1 hm] at ht
      cases ht
  · intro room b b1 h
    have c := createRoom_carvedIn h
    exact ⟨fun x y hpass => c.passable hpass, c.keeps_consistent⟩
  · intro x1 x2 y b b1 h
    have c := horizontalTunnel_carvedIn h
    exact ⟨fun x0 y0 hpass => c.passable hpass, c.keeps_consistent⟩
  · intro y1 y2 x b b1 h
    have c := verticalTunnel_carvedIn h
    exact ⟨fun x0 y0 hpass => c.passable hpass, c.keeps_consistent⟩
  · intro p dx dy w0 w1 h
    exact move_board h
  · obtain ⟨s, hs, h⟩ := makeMapGen_inv w hp
    refine ⟨s, hs, h.board.consistent, ?_⟩
    intro keys w1 hplay
    have hb := play_board keys hplay
    refine ⟨hb, ?_⟩
    rw [hb]
    exact h.board.consistent

theorem tiles_never_reblocked_witness :
    (initWorld tallRoomDraws).player < (initWorld tallRoomDraws).heap.length ∧
    ∃ s, makeMapGen (initWorld tallRoomDraws) = some s ∧ Consistent s.world.board ∧
      ∀ (keys : List Key) (w1 : World), play keys s.world = some w1 →
        w1.board = s.world.board ∧ Consistent w1.board :=
  ⟨by decide, (tiles_never_reblocked (initWorld tallRoomDraws) (by decide)).2.2.2.2.2⟩

/-! ## Tunnels on a board of any size -/

theorem min_swap (a b : Int) : min a b = min b a := by
  unfold min
  split <;> split <;> omega

theorem max_swap (a b : Int) : max a b = max b a := by
  unfold max
  split <;> split <;> omega

theorem horizontalTunnel_comm (x1 x2 y : Int) (b : Board) :
    horizontalTunnel x1 x2 y b = horizontalTunnel x2 x1 y b := by
  unfold horizontalTunnel
  rw [min_swap x1 x2, max_swap x1 x2]

theorem verticalTunnel_comm (y1 y2 x : Int) (b : Board) :
    verticalTunnel y1 y2 x b = verticalTunnel y2 y1 x b := by
  unfold verticalTunnel
  rw [min_swap y1 y2, max_swap y1 y2]

theorem horizontalTunnel_isSome (x1 x2 y : Int) (b : Board)
    (h : ∀ x, min x1 x2 ≤ x → x ≤ max x1 x2 → (b.get x y).isSome) :
    (horizontalTunnel x1 x2 y b).isSome := by
  unfold horizontalTunnel forRange
  exact forLoop_carve_isSome (fun i => i) (fun _ => y) _ _ b
    (fun i h1 h2 => h i h1 (by omega))

theorem verticalTunnel_isSome (y1 y2 x : Int) (b : Board)
    (h : ∀ y, min y1 y2 ≤ y → y ≤ max y1 y2 → (b.get x y).isSome) :
    (verticalTunnel y1 y2 x b).isSome := by
  unfold verticalTunnel forRange
  exact forLoop_carve_isSome (fun _ => x) (fun i => i) _ _ b
    (fun i h1 h2 => h i h1 (by omega))

theorem min_le_max_iff (a b x : Int) : (min a b ≤ x ∧ x ≤ max a b) ↔ Between a b x := by
  rw [← min_max_between]
  constructor
  · rintro ⟨h1, h2⟩
    exact ⟨h1, by omega⟩
  · rintro ⟨h1, h2⟩
    exact ⟨h1, by omega⟩

/-- C18: on a board of `W` columns by `H` rows and for in-range `x1`, `x2`, `y`,
`horizontalTunnel(x1, x2, y)` returns the board in which exactly the cells `(x, y)` with
`min(x1,x2) <= x <= max(x1,x2)` have been set to `Tile{false, false}` and every other cell
is as before, and `horizontalTunnel(x2, x1, y)` returns the same board; likewise
`verticalTunnel(y1, y2, x)` for the cells `(x, y)` with `min(y1,y2) <= y <= max(y1,y2)`. -/
theorem tunnel_carves_segment (b : Board) (W H : Int) (hb : b.HasSize W H) :
    (∀ x1 x2 y : Int, 0 ≤ x1 → x1 < W → 0 ≤ x2 → x2 < W → 0 ≤ y → y < H →
      ∃ b1, horizontalTunnel x1 x2 y b = some b1 ∧ horizontalTunnel x2 x1 y b = some b1 ∧
        ∀ x0 y0 : Int,
          (y0 = y ∧ min x1 x2 ≤ x0 ∧ x0 ≤ max x1 x2 →
            b1.get x0 y0 = some { blocked := false, blocksSight := false }) ∧
          (¬ (y0 = y ∧ min x1 x2 ≤ x0 ∧ x0 ≤ max x1 x2) → b1.get x0 y0 = b.get x0 y0)) ∧
    (∀ y1 y2 x : Int, 0 ≤ y1 → y1 < H → 0 ≤ y2 → y2 < H → 0 ≤ x → x < W →
      ∃ b1, verticalTunnel y1 y2 x b = some b1 ∧ verticalTunnel y2 y1 x b = some b1 ∧
        ∀ x0 y0 : Int,
          (x0 = x ∧ min y1 y2 ≤ y0 ∧ y0 ≤ max y1 y2 →
            b1.get x0 y0 = some { blocked := false, blocksSight := false }) ∧
          (¬ (x0 = x ∧ min y1 y2 ≤ y0 ∧ y0 ≤ max y1 y2) → b1.get x0 y0 = b.get x0 y0)) := by
  constructor
  · intro x1 x2 y h1 h2 h3 h4 h5 h6
    have hs := horizontalTunnel_isSome x1 x2 y b (by
      intro x hx1 hx2
      have hbt := (min_le_max_iff x1 x2 x).1 ⟨hx1, hx2⟩
      unfold Between at hbt
      exact (hb x y).2 ⟨by omega, by omega, h5, h6⟩)
    obtain ⟨b1, hb1⟩ := Option.isSome_iff_exists.1 hs
    refine ⟨b1, hb1, by rw [← horizontalTunnel_comm]; exact hb1, ?_⟩
    have c := horizontalTunnel_carvedIn hb1
    intro x0 y0
    refine ⟨fun hp => (c x0 y0).1 ⟨hp.1, (min_le_max_iff _ _ _).1 hp.2⟩, fun hn => ?_⟩
    exact (c x0 y0).2 (fun hp => hn ⟨hp.1, (min_le_max_iff _ _ _).2 hp.2⟩)
  · intro y1 y2 x h1 h2 h3 h4 h5 h6
    have hs := verticalTunnel_isSome y1 y2 x b (by
      intro y hy1 hy2
      have hbt := (min_le_max_iff y1 y2 y).1 ⟨hy1, hy2⟩
      unfold Between at hbt
      exact (hb x y).2 ⟨h5, h6, by omega, by omega⟩)
    obtain ⟨b1, hb1⟩ := Option.isSome_iff_exists.1 hs
    refine ⟨b1, hb1, by rw [← verticalTunnel_comm]; exact hb1, ?_⟩
    have c := verticalTunnel_carvedIn hb1
    intro x0 y0
    refine ⟨fun hp => (c x0 y0).1 ⟨hp.1, (min_le_max_iff _ _ _).1 hp.2⟩, fun hn => ?_⟩
    exact (c x0 y0).2 (fun hp => hn ⟨hp.1, (min_le_max_iff _ _ _).2 hp.2⟩)

theorem wallBoard_hasSize : wallBoard.HasSize 3 2 := by
  intro x y
  unfold wallBoard
  rw [Board.get_replicate]
  split
  · rename_i h
    simp only [Option.isSome_some, true_iff]
    exact ⟨h.1, by exact_mod_cast h.2.1, h.2.2.1, by exact_mod_cast h.2.2.2⟩
  · rename_i h
    simp only [Option.isSome_none, false_iff, Bool.false_eq_true]
    intro hc
    exact h ⟨hc.1, by exact_mod_cast hc.2.1, hc.2.2.1, by exact_mod_cast hc.2.2.2⟩

theorem tunnel_carves_segment_witness :
    wallBoard.HasSize 3 2 ∧
    ∃ b1, horizontalTunnel 2 0 1 wallBoard = some b1 ∧
      horizontalTunnel 0 2 1 wallBoard = some b1 ∧
      ∀ x0 y0 : Int,
        (y0 = 1 ∧ min 2 0 ≤ x0 ∧ x0 ≤ max 2 0 →
          b1.get x0 y0 = some { blocked := false, blocksSight := false }) ∧
        (¬ (y0 = 1 ∧ min 2 0 ≤ x0 ∧ x0 ≤ max 2 0) → b1.get x0 y0 = wallBoard.get x0 y0) :=
  ⟨wallBoard_hasSize,
    (tunnel_carves_segment wallBoard 3 2 wallBoard_hasSize).1 2 0 1
      (by decide) (by decide) (by decide) (by decide) (by decide) (by decide)⟩

/-! ## Rectangle geometry -/

theorem floorHalf_eq (a : Int) : floorHalf a = a / 2 := by
  unfold floorHalf
  have := Rat.floor_intCast_div_natCast a 2
  simpa using this

/-- C13: `center()` does not return the midpoint of the bounding box over `w` for `x` and
over `h` for `y`: for `Rect{0, 0, 6, 9}`, the first candidate of `makeMap` under the draws
`0, 3, 0, 0, ...`, it returns `(4, 3)` where that midpoint is `(3, 4)`. -/
theorem center_swaps_width_and_height :
    sampleRoom (initWorld tallRoomDraws).rng =
      some ({ x := 0, y := 0, w := 6, h := 9 }, { draws := tallRoomDraws, pos := 4 }) ∧
    ({ x := 0, y := 0, w := 6, h := 9 } : Rect).center = (4, 3) ∧
    (Int.tdiv ((0 : Int) + (0 + 6)) 2, Int.tdiv ((0 : Int) + (0 + 9)) 2) = (3, 4) ∧
    ({ x := 0, y := 0, w := 6, h := 9 } : Rect).center ≠
      (Int.tdiv ((0 : Int) + (0 + 6)) 2, Int.tdiv ((0 : Int) + (0 + 9)) 2) :=
  ⟨rfl, by decide, by decide, by decide⟩

theorem tdiv_two_eq_floorHalf (a : Int) (h : 0 ≤ a ∨ a % 2 = 0) :
    Int.tdiv a 2 = floorHalf a := by
  rw [floorHalf_eq]
  by_cases ha : 0 ≤ a
  · exact Int.tdiv_eq_ediv ha (by decide)
  · have hev : a % 2 = 0 := h.resolve_left ha
    have h1 : Int.tdiv a 2 = -Int.tdiv (-a) 2 := by
      have := Int.neg_tdiv (-a) 2
      rw [neg_neg] at this
      rw [this]
    rw [h1, Int.tdiv_eq_ediv (by omega) (by decide)]
    omega

theorem wrap64_add_wrap64 (a b : Int) : wrap64 (a + wrap64 b) = wrap64 (a + b) := by
  unfold wrap64
  omega

/-- C14 (as amended): for every `Rect` whose sums `x + (x + h)` and `y + (y + w)` lie in
the range of `int` and are each non-negative or even, `center()` returns
`(floor((x + (x + h)) / 2), floor((y + (y + w)) / 2))`, the x-centre derived from `h` and
the y-centre from `w`. -/
theorem center_floor_in_range (r : Rect)
    (hx : InInt (r.x + (r.x + r.h))) (hy : InInt (r.y + (r.y + r.w)))
    (hx2 : 0 ≤ r.x + (r.x + r.h) ∨ (r.x + (r.x + r.h)) % 2 = 0)
    (hy2 : 0 ≤ r.y + (r.y + r.w) ∨ (r.y + (r.y + r.w)) % 2 = 0) :
    r.center = (floorHalf (r.x + (r.x + r.h)), floorHalf (r.y + (r.y + r.w))) := by
  unfold Rect.center
  simp only
  rw [wrap64_add_wrap64, wrap64_add_wrap64, wrap64_of_inInt hx, wrap64_of_inInt hy,
    tdiv_two_eq_floorHalf _ hx2, tdiv_two_eq_floorHalf _ hy2]

theorem center_floor_in_range_witness :
    InInt (-5 + (-5 + 2)) ∧ InInt (4 + (4 + 7)) ∧
    ((0 : Int) ≤ -5 + (-5 + 2) ∨ ((-5 : Int) + (-5 + 2)) % 2 = 0) ∧
    ((0 : Int) ≤ 4 + (4 + 7) ∨ ((4 : Int) + (4 + 7)) % 2 = 0) ∧
    ({ x := -5, y := 4, w := 7, h := 2 } : Rect).center =
      (floorHalf (-5 + (-5 + 2)), floorHalf (4 + (4 + 7))) :=
  ⟨by decide, by decide, by decide, by decide,
    center_floor_in_range { x := -5, y := 4, w := 7, h := 2 } (by decide) (by decide)
      (by decide) (by decide)⟩

/-- C14 as stated fails twice.  For `Rect{-2, 0, 0, 1}` the sum `x + (x + h)` is `-3`,
`center()` returns the x-centre `-1` (Go's `/` truncates toward zero) and the floor of
`-3 / 2` is `-2`.  For `Rect{2^62, 0, 0, 2^62}` the sum is `3 * 2^62`, which wraps to `-2^62`
in a 64-bit `int`: `center()` returns the x-centre `-2^61` and the floor is `3 * 2^61`. -/
theorem center_floor_fails :
    (({ x := -2, y := 0, w := 0, h := 1 } : Rect).center = (-1, 0) ∧
      floorHalf (-2 + (-2 + 1)) = -2 ∧
      ({ x := -2, y := 0, w := 0, h := 1 } : Rect).center ≠
        (floorHalf (-2 + (-2 + 1)), floorHalf (0 + (0 + 0)))) ∧
    (({ x := 4611686018427387904, y := 0, w := 0, h := 4611686018427387904 } : Rect).center =
        (-2305843009213693952, 0) ∧
      floorHalf (4611686018427387904 + (4611686018427387904 + 4611686018427387904)) =
        6917529027641081856 ∧
      ({ x := 4611686018427387904, y := 0, w := 0, h := 4611686018427387904 } : Rect).center ≠
        (floorHalf (4611686018427387904 + (4611686018427387904 + 4611686018427387904)),
          floorHalf (0 + (0 + 0)))) := by
  have h1 : ({ x := -2, y := 0, w := 0, h := 1 } : Rect).center = (-1, 0) := by decide
  have h2 : floorHalf (-2 + (-2 + 1)) = -2 := by rw [floorHalf_eq]; decide
  have h3 : ({ x := 4611686018427387904, y := 0, w := 0, h := 4611686018427387904 } :
      Rect).center = (-2305843009213693952, 0) := by decide
  have h4 : floorHalf (4611686018427387904 + (4611686018427387904 + 4611686018427387904)) =
      6917529027641081856 := by rw [floorHalf_eq]; decide
  refine ⟨⟨h1, h2, ?_⟩, h3, h4, ?_⟩
  · rw [h1, h2]
    intro hc
    have := congrArg Prod.fst hc
    simp at this
  · rw [h3, h4]
    intro hc
    have := congrArg Prod.fst hc
    simp at this

/-- C15 (as amended): for rooms with non-negative `w` and `h` whose sums `x + w` and `y + h`
lie in the range of `int`, `a.intersect(b)` is true exactly when
`a.x <= b.x+b.w && a.x+a.w >= b.x && a.y <= b.y+b.h && a.y+a.h >= b.y`, and that holds
exactly when the closed boxes `[a.x, a.x+a.w]` by `[a.y, a.y+a.h]` and `[b.x, b.x+b.w]` by
`[b.y, b.y+b.h]` share an integer point; so rooms that touch along an edge
(`a.x + a.w == b.x` with overlapping y-ranges) or at a corner are reported as intersecting. -/
theorem intersect_iff_boxes_meet (a b : Rect) (haw : 0 ≤ a.w) (hah : 0 ≤ a.h)
    (hbw : 0 ≤ b.w) (hbh : 0 ≤ b.h) (hax : InInt (a.x + a.w)) (hay : InInt (a.y + a.h))
    (hbx : InInt (b.x + b.w)) (hby : InInt (b.y + b.h)) :
    (a.intersect b = true ↔
      (a.x ≤ b.x + b.w ∧ a.x + a.w ≥ b.x ∧ a.y ≤ b.y + b.h ∧ a.y + a.h ≥ b.y)) ∧
    ((a.x ≤ b.x + b.w ∧ a.x + a.w ≥ b.x ∧ a.y ≤ b.y + b.h ∧ a.y + a.h ≥ b.y) ↔
      ∃ px py : Int, (a.x ≤ px ∧ px ≤ a.x + a.w ∧ a.y ≤ py ∧ py ≤ a.y + a.h) ∧
        (b.x ≤ px ∧ px ≤ b.x + b.w ∧ b.y ≤ py ∧ py ≤ b.y + b.h)) ∧
    (a.x + a.w = b.x → a.y ≤ b.y + b.h → b.y ≤ a.y + a.h → a.intersect b = true) ∧
    (a.x + a.w = b.x → a.y + a.h = b.y → a.intersect b = true) := by
  have key : a.intersect b = true ↔
      (a.x ≤ b.x + b.w ∧ a.x + a.w ≥ b.x ∧ a.y ≤ b.y + b.h ∧ a.y + a.h ≥ b.y) := by
    unfold Rect.intersect
    rw [wrap64_of_inInt hax, wrap64_of_inInt hay, wrap64_of_inInt hbx, wrap64_of_inInt hby]
    simp only [ge_iff_le, Bool.and_eq_true, decide_eq_true_eq]
    tauto
  refine ⟨key, ?_, ?_, ?_⟩
  · constructor
    · rintro ⟨h1, h2, h3, h4⟩
      refine ⟨Max.max a.x b.x, Max.max a.y b.y, ?_, ?_⟩
      · refine ⟨le_max_left _ _, ?_, le_max_left _ _, ?_⟩
        · exact max_le (by omega) h2
        · exact max_le (by omega) h4
      · refine ⟨le_max_right _ _, ?_, le_max_right _ _, ?_⟩
        · exact max_le h1 (by omega)
        · exact max_le h3 (by omega)
    · rintro ⟨px, py, ⟨h1, h2, h3, h4⟩, ⟨h5, h6, h7, h8⟩⟩
      omega
  · intro h1 h2 h3
    exact key.2 (by omega)
  · intro h1 h2
    exact key.2 (by omega)

theorem intersect_iff_boxes_meet_witness :
    (0 : Int) ≤ 6 ∧ InInt (0 + 6) ∧ InInt (6 + 6) ∧
    ({ x := 0, y := 0, w := 6, h := 6 } : Rect).intersect { x := 6, y := 6, w := 6, h := 6 } =
      true :=
  ⟨by decide, by decide, by decide,
    (intersect_iff_boxes_meet { x := 0, y := 0, w := 6, h := 6 } { x := 6, y := 6, w := 6, h := 6 }
      (by decide) (by decide) (by decide) (by decide) (by decide) (by decide) (by decide)
      (by decide)).2.2.2 (by decide) (by decide)⟩

/-- C15 as stated fails: `Rect{MaxInt64, 0, 1, 1}` has non-negative `w` and `h` and its
closed box shares the point `(MaxInt64, 0)` with itself, but `x + w` wraps to `MinInt64` in a
64-bit `int`, the comparison `a.x <= b.x+b.w` is false and `intersect` returns false. -/
theorem intersect_boxes_meet_fails :
    (0 : Int) ≤ 1 ∧
    ((9223372036854775807 : Int) ≤ 9223372036854775807 ∧
      (9223372036854775807 : Int) ≤ 9223372036854775807 + 1 ∧
      (0 : Int) ≤ 0 ∧ (0 : Int) ≤ 0 + 1) ∧
    wrap64 (9223372036854775807 + 1) = -9223372036854775808 ∧
    ({ x := 9223372036854775807, y := 0, w := 1, h := 1 } : Rect).intersect
      { x := 9223372036854775807, y := 0, w := 1, h := 1 } = false := by
  decide

/-- C19 (as amended): after `makeMap` the tile at the player's position is passable; for
every `Rect` with `0 <= x`, `0 <= y`, `roomMinSize <= w, h < roomMaxSize` and sums
`x + (x + h)`, `y + (y + w)` in the range of `int`, the point `center()` returns,
`((x + (x + h)) / 2, (y + (y + w)) / 2)`, has `x+1 <= cx <= x+w-1` and
`y+1 <= cy <= y+h-1`, the cells `createRoom` carves. -/
theorem spawn_is_passable (w : World) (hp : w.player < w.heap.length) :
    (∃ s obj, makeMapGen w = some s ∧ s.world.heap[s.world.player]? = some obj ∧
      Passable s.world.board obj.x obj.y) ∧
    (∀ r : Rect, 0 ≤ r.x → 0 ≤ r.y → roomMinSize ≤ r.w → r.w < roomMaxSize →
      roomMinSize ≤ r.h → r.h < roomMaxSize →
      InInt (r.x + (r.x + r.h)) → InInt (r.y + (r.y + r.w)) →
      r.center = ((r.x + (r.x + r.h)) / 2, (r.y + (r.y + r.w)) / 2) ∧
      r.x + 1 ≤ r.center.1 ∧ r.center.1 ≤ r.x + r.w - 1 ∧
      r.y + 1 ≤ r.center.2 ∧ r.center.2 ≤ r.y + r.h - 1 ∧
      ∀ b b1 : Board, createRoom r b = some b1 → Passable b1 r.center.1 r.center.2) := by
  constructor
  · obtain ⟨s, hs, h⟩ := makeMapGen_inv w hp
    obtain ⟨_, obj, hobj, hpass⟩ := h.standing (by decide)
    exact ⟨s, obj, hs, hobj, hpass⟩
  · intro r hx hy hw1 hw2 hh1 hh2 hix hiy
    unfold roomMinSize at hw1 hh1
    unfold roomMaxSize at hw2 hh2
    have hc : r.center = ((r.x + (r.x + r.h)) / 2, (r.y + (r.y + r.w)) / 2) := by
      unfold Rect.center
      simp only
      rw [wrap64_add_wrap64, wrap64_add_wrap64, wrap64_of_inInt hix, wrap64_of_inInt hiy,
        Int.tdiv_eq_ediv (by omega) (by decide), Int.tdiv_eq_ediv (by omega) (by decide)]
    have hi : r.interior r.center.1 r.center.2 := by
      rw [hc]
      unfold Rect.interior
      simp only
      omega
    refine ⟨hc, hi.1, hi.2.1, hi.2.2.1, hi.2.2.2, ?_⟩
    intro b b1 hb
    exact ⟨_, ((createRoom_carvedIn hb) _ _).1 hi, rfl⟩

theorem spawn_is_passable_witness :
    (initWorld tallRoomDraws).player < (initWorld tallRoomDraws).heap.length ∧
    (∃ s obj, makeMapGen (initWorld tallRoomDraws) = some s ∧
      s.world.heap[s.world.player]? = some obj ∧ Passable s.world.board obj.x obj.y) ∧
    InInt (0 + (0 + 9)) ∧ InInt (0 + (0 + 6)) ∧
    ({ x := 0, y := 0, w := 6, h := 9 } : Rect).center = ((0 + (0 + 9)) / 2, (0 + (0 + 6)) / 2) :=
  ⟨by decide, (spawn_is_passable (initWorld tallRoomDraws) (by decide)).1, by decide, by decide,
    ((spawn_is_passable (initWorld tallRoomDraws) (by decide)).2
      { x := 0, y := 0, w := 6, h := 9 } (by decide) (by decide) (by decide) (by decide)
      (by decide) (by decide) (by decide) (by decide)).1⟩

/-- C19 as stated fails: `Rect{2^62, 0, 6, 6}` has `0 <= x`, `0 <= y` and `w = h = 6`, but
`x + (x + h)` wraps in a 64-bit `int` and `center()` returns the x-centre `-2^62 + 3`, which
is below `x + 1`. -/
theorem center_outside_interior_fails :
    (0 : Int) ≤ 4611686018427387904 ∧ roomMinSize ≤ 6 ∧ (6 : Int) < roomMaxSize ∧
    ({ x := 4611686018427387904, y := 0, w := 6, h := 6 } : Rect).center =
      (-4611686018427387904 + 3, 3) ∧
    ¬ ((4611686018427387904 : Int) + 1 ≤
      ({ x := 4611686018427387904, y := 0, w := 6, h := 6 } : Rect).center.1) := by
  decide

/-- C20: `intersect` is symmetric, `a.intersect(b) == b.intersect(a)` for all `Rect`s, so a
candidate that passes the loop over the earlier rooms intersects none of them in either
argument order. -/
theorem intersect_symmetric (a b : Rect) :
    a.intersect b = b.intersect a ∧
    ∀ rooms : List Rect, failedAgainst a rooms = false →
      ∀ r, r ∈ rooms → a.intersect r = false ∧ r.intersect a = false := by
  refine ⟨Rect.intersect_comm a b, ?_⟩
  intro rooms hf r hr
  have h1 := (failedAgainst_eq_false a rooms).1 hf r hr
  exact ⟨h1, by rw [Rect.intersect_comm]; exact h1⟩

end Roguelike
